import Mathlib

/-!
Shallow embedding of `src/lib-fs/istream-metawrap.c` (dovecot-core).

The filter sits on top of a parent byte stream whose content starts with a
metadata block — `key:value` lines terminated by one empty line — followed by
payload bytes.  `metadata_header_read` consumes the header lines, invoking a
callback on each `key`/`value` pair; `i_stream_metawrap_read` then passes the
payload through, and `i_stream_metawrap_stat` reports the payload size.

Modelling choices:
* Bytes are `Char`s, the parent stream is its full `content : List Char`
  together with `avail` (how many leading bytes have arrived so far — models a
  non-blocking source delivering data incrementally), the read position
  `v_offset`, its error code `stream_errno` and its `blocking` flag.
* The callback (`mstream->callback(line, p, mstream->context)`) is modelled by
  trace semantics: each operation returns the list of `(key, value)` pairs it
  fed to the callback, in invocation order.  The callback itself is
  caller-supplied code outside this translation unit and gets no channel back
  into the filter (it returns `void`), so the trace is the whole observable.
* `i_assert` aborts the process; an operation that would abort is modelled as
  returning `none` (for `metadata_header_read`, whose only assert is
  `i_assert(!blocking)`, a dedicated result constructor is used instead so the
  assert is distinguishable from the would-block result).
* The C `while` loop of `metadata_header_read` is written with explicit fuel;
  `metadata_header_read` supplies `content.length + 1` units, which is proved
  sufficient (each iteration consumes at least one byte of the parent), so the
  fuel-exhausted branch is unreachable.
-/

/-- The POSIX error code `EINVAL` used by `metadata_header_read` for a header
line without a `:` separator. -/
def EINVAL : Nat := 22

/-- Split a byte sequence at its first newline: `some (line, rest)` where
`line` is everything before the first `'\n'` and `rest` everything after it;
`none` when the sequence holds no newline.  This is the behaviour of the
parent's line-reading primitive on its buffered window: a line is only
returned once its terminating newline has arrived. -/
def splitAtNL : List Char → Option (List Char × List Char)
  | [] => none
  | c :: cs =>
    if c = '\n' then some ([], cs)
    else
      match splitAtNL cs with
      | some (l, r) => some (c :: l, r)
      | none => none

/-- `strchr(line, ':')` followed by `*p++ = '\0'`: split a line at its first
`:` into key and value; `none` when the line has no `:`. -/
def splitColon : List Char → Option (List Char × List Char)
  | [] => none
  | c :: cs =>
    if c = ':' then some ([], cs)
    else
      match splitColon cs with
      | some (k, v) => some (c :: k, v)
      | none => none

/-- The parent (source) stream: full eventual content, the number of leading
bytes that have arrived so far, the current read position, the source's own
error code (`0` = no error) and its blocking flag. -/
structure Parent where
  content : List Char
  avail : Nat
  v_offset : Nat
  stream_errno : Nat
  blocking : Bool
deriving DecidableEq

/-- The bytes currently buffered and unread at the parent's position. -/
def Parent.window (p : Parent) : List Char :=
  (p.content.drop p.v_offset).take (p.avail - p.v_offset)

/-- `i_stream_read_next_line` on the parent: returns the next complete line
(and the parent advanced past its newline), or `none` when the parent is in
error, at end of input, or has no complete line buffered yet. -/
def i_stream_read_next_line (p : Parent) : Option (List Char × Parent) :=
  if p.stream_errno ≠ 0 then none
  else
    match splitAtNL p.window with
    | none => none
    | some (l, _) => some (l, { p with v_offset := p.v_offset + l.length + 1 })

/-- Whether the parent reports end of input when it cannot produce a line: its
whole content has arrived (a further read returns -1 setting `eof`), or it is
in error. -/
def Parent.eofNow (p : Parent) : Bool :=
  p.stream_errno != 0 || p.avail == p.content.length

/-- `i_stream_seek` on the parent (the parent is seekable): set its position. -/
def i_stream_seek (p : Parent) (off : Nat) : Parent :=
  { p with v_offset := off }

/-- The mutable fields of `struct metawrap_istream` together with the generic
`istream` fields the filter reads or writes (`v_offset`, `stream_errno`,
`eof`, `abs_start_offset`). -/
structure MWState where
  start_offset : Nat
  in_metadata : Bool
  v_offset : Nat
  abs_start_offset : Nat
  stream_errno : Nat
  eof : Bool
deriving DecidableEq

/-- Result discriminator of `metadata_header_read`: `1` (header complete),
`0` (need more input, non-blocking parent), `-1` (failed), or the
`i_assert(!blocking)` abort. -/
inductive HRes
  | complete
  | needMore
  | failed
  | assertBlocking
deriving DecidableEq

/-- Full outcome of `metadata_header_read`: result, updated parent, updated
filter state, and the `(key, value)` pairs passed to the callback. -/
structure HOut where
  res : HRes
  p : Parent
  m : MWState
  calls : List (List Char × List Char)
deriving DecidableEq

/-- The `while ((line = i_stream_read_next_line(...)) != NULL)` loop of
`metadata_header_read`, with fuel.  The fuel-exhausted value is never reached
for the fuel supplied by `metadata_header_read`. -/
def headerLoop : Nat → Parent → MWState → HOut
  | 0, p, m => ⟨.needMore, p, m, []⟩
  | fuel + 1, p, m =>
    match i_stream_read_next_line p with
    | some (line, pn) =>
      if line = [] then ⟨.complete, pn, m, []⟩
      else
        match splitColon line with
        | none => ⟨.failed, pn, { m with stream_errno := EINVAL }, []⟩
        | some kv =>
          let r := headerLoop fuel pn m
          ⟨r.res, r.p, r.m, kv :: r.calls⟩
    | none =>
      if p.eofNow then
        ⟨.failed, p, { m with stream_errno := p.stream_errno, eof := true }, []⟩
      else if p.blocking then ⟨.assertBlocking, p, m, []⟩
      else ⟨.needMore, p, m, []⟩

/-- `metadata_header_read`: run the header loop with sufficient fuel. -/
def metadata_header_read (p : Parent) (m : MWState) : HOut :=
  headerLoop (p.content.length + 1) p m

/-- Outcome of a read on the filter: the `ssize_t` return value, updated
parent and filter state, callback invocations, and the payload bytes handed
to the caller by this call (the model folds the caller's `i_stream_skip` of
the returned bytes into the read, matching the usual read-and-consume
driving pattern). -/
structure ROut where
  ret : Int
  p : Parent
  m : MWState
  calls : List (List Char × List Char)
  data : List Char
deriving DecidableEq

/-- `i_stream_read_copy_from_parent` in the read-and-consume convention: hand
the caller whatever the parent yields at its position; on no data, report
end-of-file (propagating the parent's error code) or would-block. -/
def i_stream_read_copy_from_parent (p : Parent) (m : MWState)
    (cs : List (List Char × List Char)) : ROut :=
  if p.stream_errno ≠ 0 then
    ⟨-1, p, { m with stream_errno := p.stream_errno, eof := true }, cs, []⟩
  else
    match p.window with
    | [] =>
      if p.avail = p.content.length then ⟨-1, p, { m with eof := true }, cs, []⟩
      else ⟨0, p, m, cs, []⟩
    | d :: ds =>
      ⟨((d :: ds).length : Int), { p with v_offset := p.v_offset + (d :: ds).length },
        { m with v_offset := m.v_offset + (d :: ds).length }, cs, d :: ds⟩

/-- `i_stream_metawrap_read`: seek the parent to `start_offset + v_offset`;
while in the metadata block run `metadata_header_read`, record the parent's
position into `start_offset` (even when the header read did not complete!),
and on completion transition out of the metadata state and fall through to
passthrough.  `none` models an `i_assert` abort. -/
def i_stream_metawrap_read (p0 : Parent) (m : MWState) : Option ROut :=
  let p := i_stream_seek p0 (m.start_offset + m.v_offset)
  if m.in_metadata then
    let h := metadata_header_read p m
    if m.v_offset ≠ 0 then none
    else
      let m1 := { h.m with start_offset := h.p.v_offset }
      match h.res with
      | .assertBlocking => none
      | .needMore => some ⟨0, h.p, m1, h.calls, []⟩
      | .failed => some ⟨-1, h.p, m1, h.calls, []⟩
      | .complete =>
        some (i_stream_read_copy_from_parent h.p
          { m1 with abs_start_offset := m1.abs_start_offset + m1.start_offset,
                    in_metadata := false } h.calls)
  else
    some (i_stream_read_copy_from_parent p m [])

/-- Modelled from the spec: the generic stream read entry point (dovecot's
`i_stream_read`, not part of `src/`) refuses to invoke the stream's low-level
read method once the stream records an error — "On `Failure`, the component
permanently stops (no further progress in `ParsingHeader`); the filter's
error state records the cause."  With no recorded error it dispatches to
`i_stream_metawrap_read`. -/
def i_stream_read (p : Parent) (m : MWState) : Option ROut :=
  if m.stream_errno ≠ 0 then some ⟨-1, p, m, [], []⟩
  else i_stream_metawrap_read p m

/-- Outcome of `i_stream_metawrap_stat`: return value, the reported
`st_size` (`-1` = unknown), updated parent and filter state, and callback
invocations made by the read it may force. -/
structure SOut where
  ret : Int
  st_size : Int
  p : Parent
  m : MWState
  calls : List (List Char × List Char)
deriving DecidableEq

/-- `i_stream_metawrap_stat`: stat the parent (the model's parent stat always
succeeds, reporting `content.length`); while still in the metadata block force
a read — a failure propagates, no progress reports size unknown — then assert
`st_size >= start_offset` (`none` models the assert abort) and subtract. -/
def i_stream_metawrap_stat (p : Parent) (m : MWState) (exact : Bool) :
    Option SOut :=
  let stSize : Nat := p.content.length
  if m.in_metadata then
    match i_stream_metawrap_read p m with
    | none => none
    | some r =>
      if r.ret < 0 then some ⟨-1, (stSize : Int), r.p, r.m, r.calls⟩
      else if r.ret = 0 then some ⟨0, -1, r.p, r.m, r.calls⟩
      else
        if stSize < r.m.start_offset then none
        else some ⟨0, (stSize : Int) - (r.m.start_offset : Int), r.p, r.m, r.calls⟩
  else
    if stSize < m.start_offset then none
    else some ⟨0, (stSize : Int) - (m.start_offset : Int), p, m, []⟩

/-- `i_stream_create_metawrap`: the freshly created filter state
(`in_metadata = TRUE`, everything else zeroed; the child also inherits the
parent's blocking flag and is marked non-seekable, properties the modelled
operations read directly off the parent). -/
def i_stream_create_metawrap (input : Parent) : MWState :=
  { start_offset := 0, in_metadata := true, v_offset := 0,
    abs_start_offset := 0, stream_errno := 0, eof := false }

/-- A parent stream whose content has fully arrived, positioned at the start,
error-free and non-blocking. -/
def mkParent (c : List Char) : Parent :=
  ⟨c, c.length, 0, 0, false⟩

/-- Serialize header lines: each line followed by its newline. -/
def encodeLines (L : List (List Char)) : List Char :=
  (L.map (fun l => l ++ ['\n'])).flatten

/-- The `key`/`value` pair a header line is split into: key is everything
before the first `:`, value the whole remainder after it. -/
def lineSplit (l : List Char) : List Char × List Char :=
  (l.takeWhile (fun c => c ≠ ':'), (l.dropWhile (fun c => c ≠ ':')).drop 1)

/-- State after driving the filter `n` times, with the concatenated callback
trace and payload bytes obtained along the way. -/
structure DOut where
  p : Parent
  m : MWState
  calls : List (List Char × List Char)
  data : List Char
deriving DecidableEq

/-- Drive the filter by `n` successive low-level reads
(`i_stream_metawrap_read`), collecting callback invocations and payload
bytes; stops early on an assert abort. -/
def driveReads : Nat → Parent → MWState → DOut
  | 0, p, m => ⟨p, m, [], []⟩
  | n + 1, p, m =>
    match i_stream_metawrap_read p m with
    | none => ⟨p, m, [], []⟩
    | some r =>
      let d := driveReads n r.p r.m
      ⟨d.p, d.m, r.calls ++ d.calls, r.data ++ d.data⟩

/-- Drive the filter by `n` successive reads through the generic
`i_stream_read` entry point (which freezes the stream once an error is
recorded), collecting callback invocations and payload bytes. -/
def driveChecked : Nat → Parent → MWState → DOut
  | 0, p, m => ⟨p, m, [], []⟩
  | n + 1, p, m =>
    match i_stream_read p m with
    | none => ⟨p, m, [], []⟩
    | some r =>
      let d := driveChecked n r.p r.m
      ⟨d.p, d.m, r.calls ++ d.calls, r.data ++ d.data⟩

/-! ### Lemmas about the splitting primitives -/

theorem splitAtNL_append_nl (l r : List Char) (h : '\n' ∉ l) :
    splitAtNL (l ++ '\n' :: r) = some (l, r) := by
  induction l with
  | nil => simp [splitAtNL]
  | cons c cs ih =>
    have hc : c ≠ '\n' := fun hc => h (hc ▸ List.mem_cons_self c cs)
    have hcs : '\n' ∉ cs := fun hm => h (List.mem_cons_of_mem c hm)
    simp [splitAtNL, hc, ih hcs]

theorem splitAtNL_eq_none (l : List Char) (h : '\n' ∉ l) :
    splitAtNL l = none := by
  induction l with
  | nil => rfl
  | cons c cs ih =>
    have hc : c ≠ '\n' := fun hc => h (hc ▸ List.mem_cons_self c cs)
    have hcs : '\n' ∉ cs := fun hm => h (List.mem_cons_of_mem c hm)
    simp [splitAtNL, hc, ih hcs]

theorem splitAtNL_shape (w l r : List Char) (h : splitAtNL w = some (l, r)) :
    w = l ++ '\n' :: r := by
  induction w generalizing l r with
  | nil => simp [splitAtNL] at h
  | cons c cs ih =>
    by_cases hc : c = '\n'
    · subst hc
      rw [splitAtNL, if_pos rfl, Option.some.injEq, Prod.mk.injEq] at h
      obtain ⟨hl, hr⟩ := h
      rw [← hl, ← hr]
      rfl
    · rw [splitAtNL, if_neg hc] at h
      cases hsp : splitAtNL cs with
      | none => rw [hsp] at h; cases h
      | some pr =>
        obtain ⟨l', r'⟩ := pr
        rw [hsp, Option.some.injEq, Prod.mk.injEq] at h
        obtain ⟨hl, hr⟩ := h
        rw [← hl]
        simpa using ih l' r (by rw [hsp, hr])

theorem splitColon_of_mem (l : List Char) (h : ':' ∈ l) :
    splitColon l = some (lineSplit l) := by
  induction l with
  | nil => cases h
  | cons c cs ih =>
    by_cases hc : c = ':'
    · subst hc; simp [splitColon, lineSplit]
    · have hcs : ':' ∈ cs := by
        cases h with
        | head => exact absurd rfl hc
        | tail _ hm => exact hm
      simp [splitColon, hc, ih hcs, lineSplit]

theorem splitColon_eq_none (l : List Char) (h : ':' ∉ l) :
    splitColon l = none := by
  induction l with
  | nil => rfl
  | cons c cs ih =>
    have hc : c ≠ ':' := fun hc => h (hc ▸ List.mem_cons_self c cs)
    have hcs : ':' ∉ cs := fun hm => h (List.mem_cons_of_mem c hm)
    simp [splitColon, hc, ih hcs]

theorem drop_append_cons (l t : List Char) (a : Char) :
    (l ++ a :: t).drop (l.length + 1) = t := by
  induction l with
  | nil => simp
  | cons c cs ih => simpa using ih

/-! ### Lemmas about the parent stream -/

theorem window_advance (p : Parent) (k : Nat) :
    ({ p with v_offset := p.v_offset + k } : Parent).window = p.window.drop k := by
  simp only [Parent.window, List.drop_take, List.drop_drop]
  rw [Nat.sub_sub]

theorem window_length_le_avail (p : Parent) :
    p.window.length ≤ p.avail - p.v_offset := by
  simp only [Parent.window, List.length_take]
  exact Nat.min_le_left _ _

theorem window_length_le_content (p : Parent) :
    p.window.length ≤ p.content.length - p.v_offset := by
  simp only [Parent.window, List.length_take, List.length_drop]
  exact Nat.min_le_right _ _

theorem mkParent_window (c : List Char) : (mkParent c).window = c := by
  simp [mkParent, Parent.window]

theorem read_next_line_some (p pn : Parent) (l : List Char)
    (h : i_stream_read_next_line p = some (l, pn)) :
    p.stream_errno = 0 ∧
    pn = { p with v_offset := p.v_offset + (l.length + 1) } ∧
    pn.window = p.window.drop (l.length + 1) ∧
    l.length + 1 ≤ p.avail - p.v_offset ∧
    l.length + 1 ≤ p.content.length - p.v_offset := by
  have he : ¬ p.stream_errno ≠ 0 := by
    intro hne
    rw [i_stream_read_next_line, if_pos hne] at h
    cases h
  rw [i_stream_read_next_line, if_neg he] at h
  cases hsp : splitAtNL p.window with
  | none => rw [hsp] at h; cases h
  | some pr =>
    obtain ⟨l', r'⟩ := pr
    rw [hsp, Option.some.injEq, Prod.mk.injEq] at h
    obtain ⟨hl, hp⟩ := h
    subst hl
    have hw := splitAtNL_shape _ _ _ hsp
    have hwlen : l'.length + 1 ≤ p.window.length := by
      rw [hw, List.length_append, List.length_cons]
      omega
    have hassoc : p.v_offset + l'.length + 1 = p.v_offset + (l'.length + 1) := by omega
    rw [hassoc] at hp
    refine ⟨not_ne_iff.mp he, hp.symm, ?_, ?_, ?_⟩
    · rw [← hp, window_advance]
    · exact le_trans hwlen (window_length_le_avail p)
    · exact le_trans hwlen (window_length_le_content p)

theorem read_next_line_none_char (p : Parent) (he : p.stream_errno = 0)
    (h : splitAtNL p.window = none) : i_stream_read_next_line p = none := by
  rw [i_stream_read_next_line, if_neg (by simp [he]), h]

/-! ### Branch equations for the header loop -/

theorem headerLoop_blank (fuel : Nat) (p pn : Parent) (m : MWState)
    (hrnl : i_stream_read_next_line p = some ([], pn)) :
    headerLoop (fuel + 1) p m = ⟨.complete, pn, m, []⟩ := by
  simp [headerLoop, hrnl]

theorem headerLoop_nocolon (fuel : Nat) (p pn : Parent) (m : MWState)
    (line : List Char) (hrnl : i_stream_read_next_line p = some (line, pn))
    (hne : line ≠ []) (hsc : splitColon line = none) :
    headerLoop (fuel + 1) p m =
      ⟨.failed, pn, { m with stream_errno := EINVAL }, []⟩ := by
  simp [headerLoop, hrnl, hne, hsc]

theorem headerLoop_kv (fuel : Nat) (p pn : Parent) (m : MWState)
    (line : List Char) (kv : List Char × List Char)
    (hrnl : i_stream_read_next_line p = some (line, pn))
    (hne : line ≠ []) (hsc : splitColon line = some kv) :
    headerLoop (fuel + 1) p m =
      ⟨(headerLoop fuel pn m).res, (headerLoop fuel pn m).p,
        (headerLoop fuel pn m).m, kv :: (headerLoop fuel pn m).calls⟩ := by
  simp [headerLoop, hrnl, hne, hsc]

theorem headerLoop_eof (fuel : Nat) (p : Parent) (m : MWState)
    (hrnl : i_stream_read_next_line p = none) (hef : p.eofNow = true) :
    headerLoop (fuel + 1) p m =
      ⟨.failed, p, { m with stream_errno := p.stream_errno, eof := true }, []⟩ := by
  simp [headerLoop, hrnl, hef]

theorem headerLoop_assert (fuel : Nat) (p : Parent) (m : MWState)
    (hrnl : i_stream_read_next_line p = none) (hef : p.eofNow = false)
    (hb : p.blocking = true) :
    headerLoop (fuel + 1) p m = ⟨.assertBlocking, p, m, []⟩ := by
  simp [headerLoop, hrnl, hef, hb]

theorem headerLoop_more (fuel : Nat) (p : Parent) (m : MWState)
    (hrnl : i_stream_read_next_line p = none) (hef : p.eofNow = false)
    (hb : p.blocking = false) :
    headerLoop (fuel + 1) p m = ⟨.needMore, p, m, []⟩ := by
  simp [headerLoop, hrnl, hef, hb]

/-! ### Structural lemmas about the header loop -/

theorem headerLoop_effects (fuel : Nat) (p : Parent) (m : MWState) :
    (headerLoop fuel p m).p.content = p.content ∧
    (headerLoop fuel p m).p.avail = p.avail ∧
    (headerLoop fuel p m).p.stream_errno = p.stream_errno ∧
    (headerLoop fuel p m).p.blocking = p.blocking ∧
    (headerLoop fuel p m).m.start_offset = m.start_offset ∧
    (headerLoop fuel p m).m.in_metadata = m.in_metadata ∧
    (headerLoop fuel p m).m.v_offset = m.v_offset ∧
    (headerLoop fuel p m).m.abs_start_offset = m.abs_start_offset ∧
    p.v_offset ≤ (headerLoop fuel p m).p.v_offset ∧
    (headerLoop fuel p m).p.v_offset ≤ max p.v_offset p.avail := by
  induction fuel generalizing p with
  | zero =>
    exact ⟨rfl, rfl, rfl, rfl, rfl, rfl, rfl, rfl, le_refl _, le_max_left _ _⟩
  | succ fuel ih =>
    cases hrnl : i_stream_read_next_line p with
    | none =>
      cases hef : p.eofNow with
      | true =>
        rw [headerLoop_eof fuel p m hrnl hef]
        exact ⟨rfl, rfl, rfl, rfl, rfl, rfl, rfl, rfl, le_refl _, le_max_left _ _⟩
      | false =>
        cases hb : p.blocking with
        | true =>
          rw [headerLoop_assert fuel p m hrnl hef hb]
          exact ⟨rfl, rfl, rfl, hb, rfl, rfl, rfl, rfl, le_refl _, le_max_left _ _⟩
        | false =>
          rw [headerLoop_more fuel p m hrnl hef hb]
          exact ⟨rfl, rfl, rfl, hb, rfl, rfl, rfl, rfl, le_refl _, le_max_left _ _⟩
    | some pr =>
      obtain ⟨line, pn⟩ := pr
      obtain ⟨he0, hpn, hwin, hav, hct⟩ := read_next_line_some p pn line hrnl
      have hvle : p.v_offset + (line.length + 1) ≤ p.avail := by omega
      have hpnmax : pn.v_offset ≤ max p.v_offset p.avail := by
        rw [hpn]
        exact le_trans hvle (le_max_right _ _)
      have hpnmono : p.v_offset ≤ pn.v_offset := by rw [hpn]; simp
      by_cases hline : line = []
      · subst hline
        rw [headerLoop_blank fuel p pn m hrnl]
        refine ⟨?_, ?_, ?_, ?_, rfl, rfl, rfl, rfl, hpnmono, hpnmax⟩ <;>
          rw [hpn]
      · cases hsc : splitColon line with
        | none =>
          rw [headerLoop_nocolon fuel p pn m line hrnl hline hsc]
          refine ⟨?_, ?_, ?_, ?_, rfl, rfl, rfl, rfl, hpnmono, hpnmax⟩ <;>
            rw [hpn]
        | some kv =>
          rw [headerLoop_kv fuel p pn m line kv hrnl hline hsc]
          obtain ⟨h1, h2, h3, h4, h5, h6, h7, h8, h9, h10⟩ := ih pn
          have hcn : pn.content = p.content := by rw [hpn]
          have han : pn.avail = p.avail := by rw [hpn]
          have hen : pn.stream_errno = p.stream_errno := by rw [hpn]
          have hbn : pn.blocking = p.blocking := by rw [hpn]
          refine ⟨by rw [h1, hcn], by rw [h2, han], by rw [h3, hen],
            by rw [h4, hbn], h5, h6, h7, h8,
            le_trans hpnmono h9, le_trans h10 ?_⟩
          rw [han]
          exact max_le (le_trans hpnmax (le_refl _)) (le_max_right _ _)

theorem encodeLines_cons (l : List Char) (L : List (List Char)) :
    encodeLines (l :: L) = l ++ '\n' :: encodeLines L := by
  simp [encodeLines]

theorem encodeLines_nil : encodeLines [] = [] := rfl

/-- Running the header loop over a serialized block of well-formed `key:value`
lines followed by the blank terminator: the loop completes, advances the
parent exactly past the terminator, and reports one callback per line, in
order, split at the first `:`. -/
theorem headerLoop_over_block (L : List (List Char)) (fuel : Nat) (p : Parent)
    (m : MWState) (W : List Char)
    (he : p.stream_errno = 0)
    (hL : ∀ l ∈ L, ':' ∈ l ∧ '\n' ∉ l)
    (hw : p.window = encodeLines L ++ '\n' :: W)
    (hfuel : L.length < fuel) :
    headerLoop fuel p m =
      ⟨.complete, { p with v_offset := p.v_offset + ((encodeLines L).length + 1) },
        m, L.map lineSplit⟩ := by
  induction L generalizing fuel p with
  | nil =>
    obtain ⟨f, rfl⟩ : ∃ f, fuel = f + 1 := ⟨fuel - 1, by omega⟩
    rw [encodeLines_nil, List.nil_append] at hw
    have hsp : splitAtNL p.window = some ([], W) := by
      rw [hw]; simp [splitAtNL]
    have hrnl : i_stream_read_next_line p = some ([], { p with v_offset := p.v_offset + 1 }) := by
      rw [i_stream_read_next_line, if_neg (by simp [he]), hsp]
      simp
    rw [headerLoop_blank f p _ m hrnl]
    simp [encodeLines_nil]
  | cons l L ih =>
    obtain ⟨f, rfl⟩ : ∃ f, fuel = f + 1 := ⟨fuel - 1, by omega⟩
    have hcol : ':' ∈ l := (hL l (List.mem_cons_self l L)).1
    have hnl : '\n' ∉ l := (hL l (List.mem_cons_self l L)).2
    have hLt : ∀ x ∈ L, ':' ∈ x ∧ '\n' ∉ x :=
      fun x hx => hL x (List.mem_cons_of_mem l hx)
    have hne : l ≠ [] := by rintro rfl; cases hcol
    rw [encodeLines_cons, List.append_assoc, List.cons_append] at hw
    have hsp : splitAtNL p.window = some (l, encodeLines L ++ '\n' :: W) := by
      rw [hw]
      exact splitAtNL_append_nl l _ hnl
    have hrnl : i_stream_read_next_line p =
        some (l, { p with v_offset := p.v_offset + l.length + 1 }) := by
      rw [i_stream_read_next_line, if_neg (by simp [he]), hsp]
    have hsc : splitColon l = some (lineSplit l) := splitColon_of_mem l hcol
    rw [headerLoop_kv f p _ m l (lineSplit l) hrnl hne hsc]
    have hwn : ({ p with v_offset := p.v_offset + l.length + 1 } : Parent).window =
        encodeLines L ++ '\n' :: W := by
      have : p.v_offset + l.length + 1 = p.v_offset + (l.length + 1) := by omega
      rw [this, window_advance, hw, drop_append_cons]
    rw [ih f { p with v_offset := p.v_offset + l.length + 1 } he hLt hwn (by
      simp at hfuel ⊢; omega)]
    simp [encodeLines_cons, List.length_append]
    omega

/-- Running the header loop over well-formed lines followed by a line without
any `:`: the loop fails with `EINVAL`, having reported exactly the good lines
before the bad one, and the parent is advanced past the bad line. -/
theorem headerLoop_over_bad (L : List (List Char)) (fuel : Nat) (p : Parent)
    (m : MWState) (bad W : List Char)
    (he : p.stream_errno = 0)
    (hL : ∀ l ∈ L, ':' ∈ l ∧ '\n' ∉ l)
    (hbc : ':' ∉ bad) (hbn : '\n' ∉ bad) (hbe : bad ≠ [])
    (hw : p.window = encodeLines L ++ (bad ++ '\n' :: W))
    (hfuel : L.length < fuel) :
    headerLoop fuel p m =
      ⟨.failed,
        { p with v_offset := p.v_offset + ((encodeLines L).length + (bad.length + 1)) },
        { m with stream_errno := EINVAL }, L.map lineSplit⟩ := by
  induction L generalizing fuel p with
  | nil =>
    obtain ⟨f, rfl⟩ : ∃ f, fuel = f + 1 := ⟨fuel - 1, by omega⟩
    rw [encodeLines_nil, List.nil_append] at hw
    have hsp : splitAtNL p.window = some (bad, W) := by
      rw [hw]
      exact splitAtNL_append_nl bad W hbn
    have hrnl : i_stream_read_next_line p =
        some (bad, { p with v_offset := p.v_offset + bad.length + 1 }) := by
      rw [i_stream_read_next_line, if_neg (by simp [he]), hsp]
    rw [headerLoop_nocolon f p _ m bad hrnl hbe (splitColon_eq_none bad hbc)]
    simp [encodeLines_nil]
    omega
  | cons l L ih =>
    obtain ⟨f, rfl⟩ : ∃ f, fuel = f + 1 := ⟨fuel - 1, by omega⟩
    have hcol : ':' ∈ l := (hL l (List.mem_cons_self l L)).1
    have hnl : '\n' ∉ l := (hL l (List.mem_cons_self l L)).2
    have hLt : ∀ x ∈ L, ':' ∈ x ∧ '\n' ∉ x :=
      fun x hx => hL x (List.mem_cons_of_mem l hx)
    have hne : l ≠ [] := by rintro rfl; cases hcol
    rw [encodeLines_cons, List.append_assoc, List.cons_append] at hw
    have hsp : splitAtNL p.window =
        some (l, encodeLines L ++ (bad ++ '\n' :: W)) := by
      rw [hw]
      exact splitAtNL_append_nl l _ hnl
    have hrnl : i_stream_read_next_line p =
        some (l, { p with v_offset := p.v_offset + l.length + 1 }) := by
      rw [i_stream_read_next_line, if_neg (by simp [he]), hsp]
    have hsc : splitColon l = some (lineSplit l) := splitColon_of_mem l hcol
    rw [headerLoop_kv f p _ m l (lineSplit l) hrnl hne hsc]
    have hwn : ({ p with v_offset := p.v_offset + l.length + 1 } : Parent).window =
        encodeLines L ++ (bad ++ '\n' :: W) := by
      have : p.v_offset + l.length + 1 = p.v_offset + (l.length + 1) := by omega
      rw [this, window_advance, hw, drop_append_cons]
    rw [ih f { p with v_offset := p.v_offset + l.length + 1 } he hLt hwn (by
      simp at hfuel ⊢; omega)]
    simp [encodeLines_cons, List.length_append]
    omega

/-- Running the header loop over well-formed lines after which no newline
remains, on a parent whose full content has arrived (end of input) and whose
error code is clear: the loop fails, copies the parent's error code `0` into
the stream and sets `eof`, having reported exactly the complete lines. -/
theorem headerLoop_over_truncated (L : List (List Char)) (fuel : Nat)
    (p : Parent) (m : MWState) (T : List Char)
    (he : p.stream_errno = 0)
    (hL : ∀ l ∈ L, ':' ∈ l ∧ '\n' ∉ l)
    (hT : '\n' ∉ T)
    (hav : p.avail = p.content.length)
    (hw : p.window = encodeLines L ++ T)
    (hfuel : L.length < fuel) :
    headerLoop fuel p m =
      ⟨.failed, { p with v_offset := p.v_offset + (encodeLines L).length },
        { m with stream_errno := 0, eof := true }, L.map lineSplit⟩ := by
  induction L generalizing fuel p with
  | nil =>
    obtain ⟨f, rfl⟩ : ∃ f, fuel = f + 1 := ⟨fuel - 1, by omega⟩
    rw [encodeLines_nil, List.nil_append] at hw
    have hsp : splitAtNL p.window = none := by
      rw [hw]
      exact splitAtNL_eq_none T hT
    have hef : p.eofNow = true := by
      simp [Parent.eofNow, hav]
    rw [headerLoop_eof f p m (read_next_line_none_char p he hsp) hef]
    simp [encodeLines_nil, he]
    rw [← he]
  | cons l L ih =>
    obtain ⟨f, rfl⟩ : ∃ f, fuel = f + 1 := ⟨fuel - 1, by omega⟩
    have hcol : ':' ∈ l := (hL l (List.mem_cons_self l L)).1
    have hnl : '\n' ∉ l := (hL l (List.mem_cons_self l L)).2
    have hLt : ∀ x ∈ L, ':' ∈ x ∧ '\n' ∉ x :=
      fun x hx => hL x (List.mem_cons_of_mem l hx)
    have hne : l ≠ [] := by rintro rfl; cases hcol
    rw [encodeLines_cons, List.append_assoc, List.cons_append] at hw
    have hsp : splitAtNL p.window = some (l, encodeLines L ++ T) := by
      rw [hw]
      exact splitAtNL_append_nl l _ hnl
    have hrnl : i_stream_read_next_line p =
        some (l, { p with v_offset := p.v_offset + l.length + 1 }) := by
      rw [i_stream_read_next_line, if_neg (by simp [he]), hsp]
    have hsc : splitColon l = some (lineSplit l) := splitColon_of_mem l hcol
    rw [headerLoop_kv f p _ m l (lineSplit l) hrnl hne hsc]
    have hwn : ({ p with v_offset := p.v_offset + l.length + 1 } : Parent).window =
        encodeLines L ++ T := by
      have : p.v_offset + l.length + 1 = p.v_offset + (l.length + 1) := by omega
      rw [this, window_advance, hw, drop_append_cons]
    rw [ih f { p with v_offset := p.v_offset + l.length + 1 } he hLt hav hwn (by
      simp at hfuel ⊢; omega)]
    simp [encodeLines_cons, List.length_append]
    omega

/-- A parent already in error cannot produce a line, reports end of input, and
makes the header loop fail at once, propagating its error code. -/
theorem headerLoop_errored (fuel : Nat) (p : Parent) (m : MWState)
    (he : p.stream_errno ≠ 0) (hfuel : 0 < fuel) :
    headerLoop fuel p m =
      ⟨.failed, p, { m with stream_errno := p.stream_errno, eof := true }, []⟩ := by
  obtain ⟨f, rfl⟩ : ∃ f, fuel = f + 1 := ⟨fuel - 1, by omega⟩
  have hrnl : i_stream_read_next_line p = none := by
    rw [i_stream_read_next_line, if_pos he]
  have hef : p.eofNow = true := by
    simp [Parent.eofNow]
    omega
  exact headerLoop_eof f p m hrnl hef

theorem read_next_line_none_inv (p : Parent)
    (h : i_stream_read_next_line p = none) (he : p.stream_errno = 0) :
    splitAtNL p.window = none := by
  cases hsp : splitAtNL p.window with
  | none => rfl
  | some pr =>
    obtain ⟨l, r⟩ := pr
    rw [i_stream_read_next_line, if_neg (by simp [he]), hsp] at h
    cases h

/-- The would-block result of the header loop arises only from a non-blocking
parent (given sufficient fuel). -/
theorem headerLoop_needMore_nonblocking (fuel : Nat) (p : Parent) (m : MWState)
    (hfuel : p.content.length - p.v_offset < fuel)
    (h : (headerLoop fuel p m).res = .needMore) : p.blocking = false := by
  induction fuel generalizing p with
  | zero => exact absurd hfuel (by omega)
  | succ fuel ih =>
    cases hrnl : i_stream_read_next_line p with
    | none =>
      cases hef : p.eofNow with
      | true => rw [headerLoop_eof fuel p m hrnl hef] at h; cases h
      | false =>
        cases hb : p.blocking with
        | true => rw [headerLoop_assert fuel p m hrnl hef hb] at h; cases h
        | false => rfl
    | some pr =>
      obtain ⟨line, pn⟩ := pr
      obtain ⟨he0, hpn, hwin, hav, hct⟩ := read_next_line_some p pn line hrnl
      by_cases hline : line = []
      · subst hline
        rw [headerLoop_blank fuel p pn m hrnl] at h
        cases h
      · cases hsc : splitColon line with
        | none =>
          rw [headerLoop_nocolon fuel p pn m line hrnl hline hsc] at h
          cases h
        | some kv =>
          rw [headerLoop_kv fuel p pn m line kv hrnl hline hsc] at h
          have hfn : pn.content.length - pn.v_offset < fuel := by
            rw [hpn]
            simp only []
            omega
          have := ih pn hfn h
          rw [hpn] at this
          exact this

/-- With a blocking parent whose content has fully arrived, a header-loop run
(with sufficient fuel) either completes the header or fails — it neither
would-block nor trips the blocking assert. -/
theorem headerLoop_blocking_resolves (fuel : Nat) (p : Parent) (m : MWState)
    (hfuel : p.content.length - p.v_offset < fuel)
    (hb : p.blocking = true) (hav : p.avail = p.content.length) :
    (headerLoop fuel p m).res = .complete ∨ (headerLoop fuel p m).res = .failed := by
  induction fuel generalizing p with
  | zero => exact absurd hfuel (by omega)
  | succ fuel ih =>
    cases hrnl : i_stream_read_next_line p with
    | none =>
      have hef : p.eofNow = true := by simp [Parent.eofNow, hav]
      rw [headerLoop_eof fuel p m hrnl hef]
      exact Or.inr rfl
    | some pr =>
      obtain ⟨line, pn⟩ := pr
      obtain ⟨he0, hpn, hwin, havle, hct⟩ := read_next_line_some p pn line hrnl
      by_cases hline : line = []
      · subst hline
        rw [headerLoop_blank fuel p pn m hrnl]
        exact Or.inl rfl
      · cases hsc : splitColon line with
        | none =>
          rw [headerLoop_nocolon fuel p pn m line hrnl hline hsc]
          exact Or.inr rfl
        | some kv =>
          rw [headerLoop_kv fuel p pn m line kv hrnl hline hsc]
          have hfn : pn.content.length - pn.v_offset < fuel := by
            rw [hpn]
            simp only []
            omega
          exact ih pn hfn (by rw [hpn]; exact hb) (by rw [hpn]; simpa using hav)

/-- A failed header-loop run that leaves the stream's error code clear is
exactly the truncation-at-end-of-input case: the parent's error code was
clear, no newline remains in the final window, the parent's content has
fully arrived, and the filter state change is precisely
`stream_errno := 0, eof := true`. -/
theorem headerLoop_failed_clean (fuel : Nat) (p : Parent) (m : MWState)
    (h : (headerLoop fuel p m).res = .failed)
    (hm : (headerLoop fuel p m).m.stream_errno = 0) :
    p.stream_errno = 0 ∧
    splitAtNL (headerLoop fuel p m).p.window = none ∧
    (headerLoop fuel p m).p.avail = (headerLoop fuel p m).p.content.length ∧
    (headerLoop fuel p m).m = { m with stream_errno := 0, eof := true } := by
  induction fuel generalizing p with
  | zero => cases h
  | succ fuel ih =>
    cases hrnl : i_stream_read_next_line p with
    | none =>
      cases hef : p.eofNow with
      | true =>
        rw [headerLoop_eof fuel p m hrnl hef] at h hm ⊢
        simp only [] at hm
        refine ⟨hm, read_next_line_none_inv p hrnl hm, ?_, by rw [hm]⟩
        simp [Parent.eofNow, hm] at hef
        exact hef
      | false =>
        cases hb : p.blocking with
        | true => rw [headerLoop_assert fuel p m hrnl hef hb] at h; cases h
        | false => rw [headerLoop_more fuel p m hrnl hef hb] at h; cases h
    | some pr =>
      obtain ⟨line, pn⟩ := pr
      obtain ⟨he0, hpn, hwin, havle, hct⟩ := read_next_line_some p pn line hrnl
      by_cases hline : line = []
      · subst hline
        rw [headerLoop_blank fuel p pn m hrnl] at h
        cases h
      · cases hsc : splitColon line with
        | none =>
          rw [headerLoop_nocolon fuel p pn m line hrnl hline hsc] at hm
          simp [EINVAL] at hm
        | some kv =>
          rw [headerLoop_kv fuel p pn m line kv hrnl hline hsc] at h hm ⊢
          simp only [] at h hm
          obtain ⟨_, h2, h3, h4⟩ := ih pn h hm
          exact ⟨he0, h2, h3, h4⟩

/-! ### Read-level lemmas -/

theorem copy_from_parent_effects (p : Parent) (m : MWState)
    (cs : List (List Char × List Char)) :
    (i_stream_read_copy_from_parent p m cs).m.in_metadata = m.in_metadata ∧
    (i_stream_read_copy_from_parent p m cs).m.start_offset = m.start_offset ∧
    (i_stream_read_copy_from_parent p m cs).calls = cs ∧
    (i_stream_read_copy_from_parent p m cs).p.content = p.content ∧
    (i_stream_read_copy_from_parent p m cs).p.avail = p.avail := by
  unfold i_stream_read_copy_from_parent
  by_cases he : p.stream_errno ≠ 0
  · simp [he]
  · simp only [he, if_false]
    cases hw : p.window with
    | nil =>
      by_cases hav : p.avail = p.content.length <;> simp [hav]
    | cons d ds => simp

theorem metadata_header_failed_clean (p : Parent) (m : MWState)
    (h : (metadata_header_read p m).res = .failed)
    (hm : (metadata_header_read p m).m.stream_errno = 0) :
    p.stream_errno = 0 ∧
    splitAtNL (metadata_header_read p m).p.window = none ∧
    (metadata_header_read p m).p.avail = (metadata_header_read p m).p.content.length ∧
    (metadata_header_read p m).m = { m with stream_errno := 0, eof := true } :=
  headerLoop_failed_clean (p.content.length + 1) p m h hm

theorem metadata_header_needMore_nonblocking (p : Parent) (m : MWState)
    (h : (metadata_header_read p m).res = .needMore) : p.blocking = false :=
  headerLoop_needMore_nonblocking (p.content.length + 1) p m (by omega) h

theorem metadata_header_blocking_resolves (p : Parent) (m : MWState)
    (hb : p.blocking = true) (hav : p.avail = p.content.length) :
    (metadata_header_read p m).res = .complete ∨
    (metadata_header_read p m).res = .failed :=
  headerLoop_blocking_resolves (p.content.length + 1) p m (by omega) hb hav

theorem metadata_header_effects (p : Parent) (m : MWState) :
    (metadata_header_read p m).p.content = p.content ∧
    (metadata_header_read p m).p.avail = p.avail ∧
    (metadata_header_read p m).p.stream_errno = p.stream_errno ∧
    (metadata_header_read p m).p.blocking = p.blocking ∧
    (metadata_header_read p m).m.start_offset = m.start_offset ∧
    (metadata_header_read p m).m.in_metadata = m.in_metadata ∧
    (metadata_header_read p m).m.v_offset = m.v_offset ∧
    (metadata_header_read p m).m.abs_start_offset = m.abs_start_offset ∧
    p.v_offset ≤ (metadata_header_read p m).p.v_offset ∧
    (metadata_header_read p m).p.v_offset ≤ max p.v_offset p.avail :=
  headerLoop_effects (p.content.length + 1) p m

/-- A fully drained passthrough state: header left behind, no errors, all
content arrived and consumed. -/
def Drained (p : Parent) (m : MWState) : Prop :=
  m.in_metadata = false ∧ m.stream_errno = 0 ∧ p.stream_errno = 0 ∧
  p.avail = p.content.length ∧ p.content.length ≤ m.start_offset + m.v_offset

theorem drained_read (p : Parent) (m : MWState) (h : Drained p m) :
    i_stream_metawrap_read p m =
      some ⟨-1, i_stream_seek p (m.start_offset + m.v_offset),
        { m with eof := true }, [], []⟩ ∧
    Drained (i_stream_seek p (m.start_offset + m.v_offset)) { m with eof := true } := by
  obtain ⟨h1, h2, h3, h4, h5⟩ := h
  obtain ⟨pc, pa, pv, pe, pb⟩ := p
  obtain ⟨so, im, mv, ab, me, mf⟩ := m
  simp only at h1 h2 h3 h4 h5
  subst h1 h2 h3 h4
  have hdrop : pc.drop (so + mv) = [] := List.drop_eq_nil_of_le h5
  constructor
  · simp [i_stream_metawrap_read, i_stream_seek, i_stream_read_copy_from_parent,
      Parent.window, hdrop]
  · exact ⟨rfl, rfl, rfl, rfl, h5⟩

theorem drained_drive (n : Nat) (p : Parent) (m : MWState) (h : Drained p m) :
    (driveReads n p m).calls = [] ∧ (driveReads n p m).data = [] := by
  induction n generalizing p m with
  | zero => exact ⟨rfl, rfl⟩
  | succ n ih =>
    obtain ⟨hr, hd⟩ := drained_read p m h
    rw [driveReads, hr]
    obtain ⟨ih1, ih2⟩ := ih _ _ hd
    simp [ih1, ih2]

/-- Once the filter records an error, the generic read entry point freezes the
whole state: no callbacks, no data, no state change, forever. -/
theorem driveChecked_frozen (n : Nat) (p : Parent) (m : MWState)
    (h : m.stream_errno ≠ 0) : driveChecked n p m = ⟨p, m, [], []⟩ := by
  induction n with
  | zero => rfl
  | succ n ih =>
    rw [driveChecked, i_stream_read, if_pos h]
    simp [ih]

/-- A filter that failed header parsing at a clean end of input is a fixed
point of the low-level read: every further read re-fails identically, with no
callbacks, no data, and no state change. -/
theorem metadata_header_eof (p : Parent) (m : MWState)
    (hrnl : i_stream_read_next_line p = none) (hef : p.eofNow = true) :
    metadata_header_read p m =
      ⟨.failed, p, { m with stream_errno := p.stream_errno, eof := true }, []⟩ :=
  headerLoop_eof p.content.length p m hrnl hef

theorem metawrap_read_stuck (p : Parent) (m : MWState)
    (hm : m.in_metadata = true) (hv : m.v_offset = 0)
    (hso : m.start_offset = p.v_offset)
    (he : p.stream_errno = 0) (hsp : splitAtNL p.window = none)
    (hav : p.avail = p.content.length)
    (heof : m.eof = true) (hme : m.stream_errno = 0) :
    i_stream_metawrap_read p m = some ⟨-1, p, m, [], []⟩ := by
  obtain ⟨pc, pa, pv, pe, pb⟩ := p
  obtain ⟨so, im, mv, ab, me, mf⟩ := m
  simp only at hm hv hso he hav heof hme
  subst hm hv hso he hav heof hme
  have hh : metadata_header_read ⟨pc, pc.length, so, 0, pb⟩
        ⟨so, true, 0, ab, 0, true⟩ =
      ⟨.failed, ⟨pc, pc.length, so, 0, pb⟩, ⟨so, true, 0, ab, 0, true⟩, []⟩ := by
    rw [metadata_header_eof _ _ (read_next_line_none_char _ rfl hsp)
      (by simp [Parent.eofNow])]
  simp [i_stream_metawrap_read, i_stream_seek, hh]

theorem driveChecked_stuck (n : Nat) (p : Parent) (m : MWState)
    (hm : m.in_metadata = true) (hv : m.v_offset = 0)
    (hso : m.start_offset = p.v_offset)
    (he : p.stream_errno = 0) (hsp : splitAtNL p.window = none)
    (hav : p.avail = p.content.length)
    (heof : m.eof = true) (hme : m.stream_errno = 0) :
    driveChecked n p m = ⟨p, m, [], []⟩ := by
  induction n with
  | zero => rfl
  | succ n ih =>
    rw [driveChecked, i_stream_read, if_neg (by simp [hme]),
      metawrap_read_stuck p m hm hv hso he hsp hav heof hme]
    simp [ih]

theorem length_le_encodeLines (L : List (List Char)) :
    L.length ≤ (encodeLines L).length := by
  induction L with
  | nil => simp [encodeLines_nil]
  | cons l L ih =>
    rw [encodeLines_cons]
    simp only [List.length_cons, List.length_append, List.length_cons]
    omega

/-- The first read of a fresh filter over a fully arrived source holding a
well-formed header block followed by payload `B`: the header completes, every
line is reported, and the whole payload is delivered (`-1`/end-of-file when
the payload is empty). -/
theorem metawrap_first_read (L : List (List Char)) (B c : List Char)
    (hc : c = encodeLines L ++ '\n' :: B)
    (hL : ∀ l ∈ L, ':' ∈ l ∧ '\n' ∉ l) :
    i_stream_metawrap_read (mkParent c) (i_stream_create_metawrap (mkParent c)) =
      some ⟨if B.isEmpty then -1 else (B.length : Int),
        ⟨c, c.length, ((encodeLines L).length + 1) + B.length, 0, false⟩,
        ⟨(encodeLines L).length + 1, false, B.length, (encodeLines L).length + 1,
          0, B.isEmpty⟩,
        L.map lineSplit, B⟩ := by
  subst hc
  have hflen : L.length < (encodeLines L ++ '\n' :: B).length + 1 := by
    have := length_le_encodeLines L
    simp only [List.length_append, List.length_cons]
    omega
  have hmeta : metadata_header_read (mkParent (encodeLines L ++ '\n' :: B))
        ⟨0, true, 0, 0, 0, false⟩ =
      ⟨.complete,
        ⟨encodeLines L ++ '\n' :: B, (encodeLines L ++ '\n' :: B).length,
          (encodeLines L).length + 1, 0, false⟩,
        ⟨0, true, 0, 0, 0, false⟩, L.map lineSplit⟩ := by
    have hb := headerLoop_over_block L ((encodeLines L ++ '\n' :: B).length + 1)
      (mkParent (encodeLines L ++ '\n' :: B)) ⟨0, true, 0, 0, 0, false⟩ B
      (by simp [mkParent]) hL (mkParent_window _) hflen
    rw [metadata_header_read]
    simp only [mkParent] at hb ⊢
    rw [hb]
    simp
  have hdrop : (encodeLines L ++ '\n' :: B).drop ((encodeLines L).length + 1) = B :=
    drop_append_cons _ _ _
  have hwin2 : (⟨encodeLines L ++ '\n' :: B, (encodeLines L ++ '\n' :: B).length,
      (encodeLines L).length + 1, 0, false⟩ : Parent).window = B := by
    simp only [Parent.window, hdrop, List.length_append, List.length_cons]
    rw [List.take_of_length_le]
    omega
  rw [i_stream_metawrap_read]
  simp only [i_stream_create_metawrap, i_stream_seek, mkParent, Nat.add_zero,
    Nat.zero_add, if_true]
  rw [show (⟨encodeLines L ++ '\n' :: B, (encodeLines L ++ '\n' :: B).length, 0, 0,
    false⟩ : Parent) = mkParent (encodeLines L ++ '\n' :: B) from rfl, hmeta]
  simp only []
  rw [i_stream_read_copy_from_parent]
  rw [if_neg (by simp), hwin2]
  cases B with
  | nil => simp
  | cons d ds => simp [List.isEmpty]

/-- One successful low-level read preserves the filter's structural invariant
(available bytes within content, `start_offset` within content, zero logical
offset while parsing the header) and never decreases `start_offset`. -/
theorem metawrap_read_preserves_inv (p : Parent) (m : MWState) (r : ROut)
    (hr : i_stream_metawrap_read p m = some r)
    (h1 : p.avail ≤ p.content.length)
    (h2 : m.start_offset ≤ p.content.length)
    (h3 : m.in_metadata = true → m.v_offset = 0) :
    r.p.content = p.content ∧ r.p.avail ≤ r.p.content.length ∧
    r.m.start_offset ≤ r.p.content.length ∧
    (r.m.in_metadata = true → r.m.v_offset = 0) ∧
    m.start_offset ≤ r.m.start_offset := by
  rw [i_stream_metawrap_read] at hr
  cases him : m.in_metadata with
  | false =>
    simp only [him, Bool.false_eq_true, if_false] at hr
    rw [Option.some.injEq] at hr
    obtain ⟨hc1, hc2, hc3, hc4, hc5⟩ :=
      copy_from_parent_effects (i_stream_seek p (m.start_offset + m.v_offset)) m []
    rw [hr] at hc1 hc2 hc4 hc5
    simp only [i_stream_seek] at hc4 hc5
    refine ⟨hc4, ?_, ?_, ?_, le_of_eq hc2.symm⟩
    · rw [hc5, hc4]
      exact h1
    · rw [hc2, hc4]
      exact h2
    · intro habs
      rw [hc1, him] at habs
      cases habs
  | true =>
    have hv : m.v_offset = 0 := h3 him
    simp only [him, if_true] at hr
    rw [if_neg (by simp [hv])] at hr
    cases hH : metadata_header_read (i_stream_seek p (m.start_offset + m.v_offset)) m with
    | mk res hp hm2 calls =>
    rw [hH] at hr
    have heff := metadata_header_effects (i_stream_seek p (m.start_offset + m.v_offset)) m
    rw [hH] at heff
    simp only [i_stream_seek] at heff
    obtain ⟨e1, e2, e3, e4, e5, e6, e7, e8, e9, e10⟩ := heff
    have hvs : hp.v_offset ≤ p.content.length :=
      le_trans e10 (max_le (by omega) h1)
    have hvm : m.start_offset ≤ hp.v_offset := le_trans (by omega) e9
    cases res with
    | assertBlocking => cases hr
    | needMore =>
      simp only [Option.some.injEq] at hr
      rw [← hr]
      refine ⟨e1, ?_, ?_, ?_, hvm⟩
      · rw [e2, e1]
        exact h1
      · rw [e1]
        exact hvs
      · intro _
        rw [e7]
        exact hv
    | failed =>
      simp only [Option.some.injEq] at hr
      rw [← hr]
      refine ⟨e1, ?_, ?_, ?_, hvm⟩
      · rw [e2, e1]
        exact h1
      · rw [e1]
        exact hvs
      · intro _
        rw [e7]
        exact hv
    | complete =>
      simp only [Option.some.injEq] at hr
      obtain ⟨hc1, hc2, hc3, hc4, hc5⟩ := copy_from_parent_effects hp
        { start_offset := hp.v_offset, in_metadata := false, v_offset := hm2.v_offset,
          abs_start_offset := hm2.abs_start_offset + hp.v_offset,
          stream_errno := hm2.stream_errno, eof := hm2.eof } calls
      simp only at hc1 hc2
      rw [hr] at hc1 hc2 hc4 hc5
      refine ⟨by rw [hc4, e1], ?_, ?_, ?_, ?_⟩
      · rw [hc5, hc4, e2, e1]
        exact h1
      · rw [hc2, hc4, e1]
        exact hvs
      · intro habs
        rw [hc1] at habs
        cases habs
      · rw [hc2]
        exact hvm

/-- A successful read never decreases `start_offset` (it rewrites it to the
parent's position, which lies at or beyond the previous `start_offset`). -/
theorem metawrap_read_start_mono (p : Parent) (m : MWState) (r : ROut)
    (hr : i_stream_metawrap_read p m = some r) :
    m.start_offset ≤ r.m.start_offset := by
  rw [i_stream_metawrap_read] at hr
  cases him : m.in_metadata with
  | false =>
    simp only [him, Bool.false_eq_true, if_false] at hr
    rw [Option.some.injEq] at hr
    obtain ⟨_, hc2, _, _, _⟩ :=
      copy_from_parent_effects (i_stream_seek p (m.start_offset + m.v_offset)) m []
    rw [hr] at hc2
    exact le_of_eq hc2.symm
  | true =>
    simp only [him, if_true] at hr
    by_cases hv : m.v_offset = 0
    · rw [if_neg (by simp [hv])] at hr
      cases hH : metadata_header_read (i_stream_seek p (m.start_offset + m.v_offset)) m with
      | mk res hp hm2 calls =>
      rw [hH] at hr
      have heff := metadata_header_effects (i_stream_seek p (m.start_offset + m.v_offset)) m
      rw [hH] at heff
      simp only [i_stream_seek] at heff
      have hvm : m.start_offset ≤ hp.v_offset :=
        le_trans (by omega) heff.2.2.2.2.2.2.2.2.1
      cases res with
      | assertBlocking => cases hr
      | needMore =>
        simp only [Option.some.injEq] at hr
        rw [← hr]
        exact hvm
      | failed =>
        simp only [Option.some.injEq] at hr
        rw [← hr]
        exact hvm
      | complete =>
        simp only [Option.some.injEq] at hr
        obtain ⟨_, hc2, _, _, _⟩ := copy_from_parent_effects hp
          { start_offset := hp.v_offset, in_metadata := false, v_offset := hm2.v_offset,
            abs_start_offset := hm2.abs_start_offset + hp.v_offset,
            stream_errno := hm2.stream_errno, eof := hm2.eof } calls
        rw [hr] at hc2
        rw [hc2]
        exact hvm
    · rw [if_pos (by simp [hv])] at hr
      cases hr

/-- `i_stream_metawrap_stat` reaches its conclusion through at most one read,
so it inherits the read's invariant preservation and `start_offset`
monotonicity; in passthrough it changes nothing. -/
theorem metawrap_stat_preserves_inv (p : Parent) (m : MWState) (e : Bool)
    (s : SOut) (hs : i_stream_metawrap_stat p m e = some s)
    (h1 : p.avail ≤ p.content.length)
    (h2 : m.start_offset ≤ p.content.length)
    (h3 : m.in_metadata = true → m.v_offset = 0) :
    s.p.content = p.content ∧ s.p.avail ≤ s.p.content.length ∧
    s.m.start_offset ≤ s.p.content.length ∧
    (s.m.in_metadata = true → s.m.v_offset = 0) ∧
    m.start_offset ≤ s.m.start_offset := by
  rw [i_stream_metawrap_stat] at hs
  cases him : m.in_metadata with
  | false =>
    simp only [him, Bool.false_eq_true, if_false] at hs
    by_cases hlt : p.content.length < m.start_offset
    · rw [if_pos (by exact_mod_cast hlt)] at hs
      cases hs
    · rw [if_neg (by exact_mod_cast hlt)] at hs
      rw [Option.some.injEq] at hs
      rw [← hs]
      exact ⟨rfl, h1, h2, h3, le_refl _⟩
  | true =>
    simp only [him, if_true] at hs
    cases hread : i_stream_metawrap_read p m with
    | none => rw [hread] at hs; cases hs
    | some r =>
      rw [hread] at hs
      simp only [] at hs
      obtain ⟨i1, i2, i3, i4, i5⟩ :=
        metawrap_read_preserves_inv p m r hread h1 h2 h3
      by_cases hneg : r.ret < 0
      · rw [if_pos hneg, Option.some.injEq] at hs
        rw [← hs]
        exact ⟨i1, i2, i3, i4, i5⟩
      · rw [if_neg hneg] at hs
        by_cases hzero : r.ret = 0
        · rw [if_pos hzero, Option.some.injEq] at hs
          rw [← hs]
          exact ⟨i1, i2, i3, i4, i5⟩
        · rw [if_neg hzero] at hs
          by_cases hlt : p.content.length < r.m.start_offset
          · rw [if_pos (by exact_mod_cast hlt)] at hs
            cases hs
          · rw [if_neg (by exact_mod_cast hlt)] at hs
            rw [Option.some.injEq] at hs
            rw [← hs]
            exact ⟨i1, i2, i3, i4, i5⟩

theorem metawrap_stat_start_mono (p : Parent) (m : MWState) (e : Bool)
    (s : SOut) (hs : i_stream_metawrap_stat p m e = some s) :
    m.start_offset ≤ s.m.start_offset := by
  rw [i_stream_metawrap_stat] at hs
  cases him : m.in_metadata with
  | false =>
    simp only [him, Bool.false_eq_true, if_false] at hs
    by_cases hlt : p.content.length < m.start_offset
    · rw [if_pos (by exact_mod_cast hlt)] at hs
      cases hs
    · rw [if_neg (by exact_mod_cast hlt)] at hs
      rw [Option.some.injEq] at hs
      rw [← hs]
  | true =>
    simp only [him, if_true] at hs
    cases hread : i_stream_metawrap_read p m with
    | none => rw [hread] at hs; cases hs
    | some r =>
      rw [hread] at hs
      simp only [] at hs
      have i5 := metawrap_read_start_mono p m r hread
      by_cases hneg : r.ret < 0
      · rw [if_pos hneg, Option.some.injEq] at hs
        rw [← hs]
        exact i5
      · rw [if_neg hneg] at hs
        by_cases hzero : r.ret = 0
        · rw [if_pos hzero, Option.some.injEq] at hs
          rw [← hs]
          exact i5
        · rw [if_neg hzero] at hs
          by_cases hlt : p.content.length < r.m.start_offset
          · rw [if_pos (by exact_mod_cast hlt)] at hs
            cases hs
          · rw [if_neg (by exact_mod_cast hlt)] at hs
            rw [Option.some.injEq] at hs
            rw [← hs]
            exact i5

/-- A stat issued while the header is still being parsed, whose forced read
reports would-block, succeeds with size unknown (`st_size = -1`). -/
theorem metawrap_stat_wouldblock (p : Parent) (m : MWState) (e : Bool) (r : ROut)
    (him : m.in_metadata = true) (hr : i_stream_metawrap_read p m = some r)
    (h0 : r.ret = 0) :
    i_stream_metawrap_stat p m e = some ⟨0, -1, r.p, r.m, r.calls⟩ := by
  rw [i_stream_metawrap_stat]
  simp only [him, if_true]
  rw [hr]
  simp [h0]

/-- In passthrough, a source size below `start_offset` makes the stat abort
via `i_assert` — it is never returned as an ordinary result. -/
theorem metawrap_stat_assert (p : Parent) (m : MWState) (e : Bool)
    (him : m.in_metadata = false) (hlt : p.content.length < m.start_offset) :
    i_stream_metawrap_stat p m e = none := by
  rw [i_stream_metawrap_stat]
  simp only [him, Bool.false_eq_true, if_false]
  rw [if_pos (by exact_mod_cast hlt)]

/-! ### Reachable filter states -/

/-- The states one filter instance can be in: freshly created over a source
(with any prefix of the content arrived), after more source bytes arrive, and
after any successful read or stat operation. -/
inductive Reach : Parent → MWState → Prop
  | init (c : List Char) (a voff en : Nat) (b : Bool) (ha : a ≤ c.length) :
      Reach ⟨c, a, voff, en, b⟩ (i_stream_create_metawrap ⟨c, a, voff, en, b⟩)
  | grow (p : Parent) (m : MWState) (a : Nat) (hr : Reach p m)
      (h1 : p.avail ≤ a) (h2 : a ≤ p.content.length) :
      Reach { p with avail := a } m
  | readStep (p : Parent) (m : MWState) (r : ROut) (hr : Reach p m)
      (h : i_stream_metawrap_read p m = some r) : Reach r.p r.m
  | statStep (p : Parent) (m : MWState) (e : Bool) (s : SOut) (hr : Reach p m)
      (h : i_stream_metawrap_stat p m e = some s) : Reach s.p s.m

/-- Invariant of all reachable states: the arrived prefix stays within the
content, `start_offset` stays within the content, and the filter's logical
offset is `0` while the header is being parsed. -/
theorem reach_inv (p : Parent) (m : MWState) (h : Reach p m) :
    p.avail ≤ p.content.length ∧ m.start_offset ≤ p.content.length ∧
    (m.in_metadata = true → m.v_offset = 0) := by
  induction h with
  | init c a voff en b ha =>
    exact ⟨ha, Nat.zero_le _, fun _ => rfl⟩
  | grow p m a hr h1 h2 ih =>
    exact ⟨h2, ih.2.1, ih.2.2⟩
  | readStep p m r hr h ih =>
    obtain ⟨i1, i2, i3, i4, _⟩ :=
      metawrap_read_preserves_inv p m r h ih.1 ih.2.1 ih.2.2
    exact ⟨i2, i3, i4⟩
  | statStep p m e s hr h ih =>
    obtain ⟨i1, i2, i3, i4, _⟩ :=
      metawrap_stat_preserves_inv p m e s h ih.1 ih.2.1 ih.2.2
    exact ⟨i2, i3, i4⟩

/-- The first read of a fresh filter over a source whose header block has a
line without `:` after the well-formed lines `L`: the read fails with
`EINVAL`, reports exactly the lines before the bad one, delivers no payload,
and stays in the metadata state. -/
theorem metawrap_first_read_bad (L : List (List Char)) (bad W c : List Char)
    (hc : c = encodeLines L ++ (bad ++ '\n' :: W))
    (hL : ∀ l ∈ L, ':' ∈ l ∧ '\n' ∉ l)
    (hbc : ':' ∉ bad) (hbn : '\n' ∉ bad) (hbe : bad ≠ []) :
    i_stream_metawrap_read (mkParent c) (i_stream_create_metawrap (mkParent c)) =
      some ⟨-1,
        ⟨c, c.length, (encodeLines L).length + (bad.length + 1), 0, false⟩,
        ⟨(encodeLines L).length + (bad.length + 1), true, 0, 0, EINVAL, false⟩,
        L.map lineSplit, []⟩ := by
  subst hc
  have hflen : L.length < (encodeLines L ++ (bad ++ '\n' :: W)).length + 1 := by
    have := length_le_encodeLines L
    simp only [List.length_append, List.length_cons]
    omega
  have hmeta : metadata_header_read (mkParent (encodeLines L ++ (bad ++ '\n' :: W)))
        ⟨0, true, 0, 0, 0, false⟩ =
      ⟨.failed,
        ⟨encodeLines L ++ (bad ++ '\n' :: W),
          (encodeLines L ++ (bad ++ '\n' :: W)).length,
          (encodeLines L).length + (bad.length + 1), 0, false⟩,
        ⟨0, true, 0, 0, EINVAL, false⟩, L.map lineSplit⟩ := by
    have hb := headerLoop_over_bad L ((encodeLines L ++ (bad ++ '\n' :: W)).length + 1)
      (mkParent (encodeLines L ++ (bad ++ '\n' :: W))) ⟨0, true, 0, 0, 0, false⟩ bad W
      (by simp [mkParent]) hL hbc hbn hbe (mkParent_window _) hflen
    rw [metadata_header_read]
    simp only [mkParent] at hb ⊢
    rw [hb]
    simp
  rw [i_stream_metawrap_read]
  simp only [i_stream_create_metawrap, i_stream_seek, mkParent, Nat.add_zero,
    Nat.zero_add, if_true]
  rw [show (⟨encodeLines L ++ (bad ++ '\n' :: W),
    (encodeLines L ++ (bad ++ '\n' :: W)).length, 0, 0, false⟩ : Parent) =
    mkParent (encodeLines L ++ (bad ++ '\n' :: W)) from rfl, hmeta]
  simp

/-! ### Claim theorems -/

/-- C1: for every source whose content is a valid header block (zero or more
`key:value` lines terminated by one empty line) followed by payload bytes
`B`, reading the metawrap stream end-to-end via `i_stream_metawrap_read`
yields exactly the bytes `B`, unchanged, for every header length including
the empty header. -/
theorem metawrap_payload_passthrough (L : List (List Char)) (B : List Char)
    (n : Nat) (hL : ∀ l ∈ L, ':' ∈ l ∧ '\n' ∉ l) :
    (driveReads (n + 1) (mkParent (encodeLines L ++ '\n' :: B))
      (i_stream_create_metawrap (mkParent (encodeLines L ++ '\n' :: B)))).data
      = B := by
  rw [driveReads, metawrap_first_read L B _ rfl hL]
  have hdr : Drained
      (⟨encodeLines L ++ '\n' :: B, (encodeLines L ++ '\n' :: B).length,
        ((encodeLines L).length + 1) + B.length, 0, false⟩ : Parent)
      ⟨(encodeLines L).length + 1, false, B.length, (encodeLines L).length + 1,
        0, B.isEmpty⟩ := by
    refine ⟨rfl, rfl, rfl, rfl, ?_⟩
    simp [List.length_append]
    omega
  obtain ⟨hcalls, hdata⟩ := drained_drive n _ _ hdr
  simp only []
  rw [hdata, List.append_nil]

/-- C1 witness: scenario B — the source `"\nBODY"` (empty header) read
end-to-end yields exactly `"BODY"`. -/
theorem metawrap_payload_passthrough_witness :
    (∀ l ∈ ([] : List (List Char)), ':' ∈ l ∧ '\n' ∉ l) ∧
    (driveReads 2 (mkParent (encodeLines [] ++ '\n' :: ['B', 'O', 'D', 'Y']))
      (i_stream_create_metawrap
        (mkParent (encodeLines [] ++ '\n' :: ['B', 'O', 'D', 'Y'])))).data
      = ['B', 'O', 'D', 'Y'] :=
  ⟨by decide, metawrap_payload_passthrough [] ['B', 'O', 'D', 'Y'] 1 (by decide)⟩

/-- C2: over a valid header block, the callback is invoked exactly once per
non-empty header line, in file order, with key the substring before the first
`:` of the line and value the entire remainder after it (no trimming, so a
value may itself contain `:`); the terminating empty line and payload bytes
trigger no invocation. -/
theorem metawrap_sink_calls (L : List (List Char)) (B : List Char)
    (n : Nat) (hL : ∀ l ∈ L, ':' ∈ l ∧ '\n' ∉ l) :
    (driveReads (n + 1) (mkParent (encodeLines L ++ '\n' :: B))
      (i_stream_create_metawrap (mkParent (encodeLines L ++ '\n' :: B)))).calls
      = L.map (fun l => (l.takeWhile (fun c => c ≠ ':'),
          (l.dropWhile (fun c => c ≠ ':')).drop 1)) := by
  rw [driveReads, metawrap_first_read L B _ rfl hL]
  have hdr : Drained
      (⟨encodeLines L ++ '\n' :: B, (encodeLines L ++ '\n' :: B).length,
        ((encodeLines L).length + 1) + B.length, 0, false⟩ : Parent)
      ⟨(encodeLines L).length + 1, false, B.length, (encodeLines L).length + 1,
        0, B.isEmpty⟩ := by
    refine ⟨rfl, rfl, rfl, rfl, ?_⟩
    simp [List.length_append]
    omega
  obtain ⟨hcalls, hdata⟩ := drained_drive n _ _ hdr
  simp only []
  rw [hcalls, List.append_nil]
  rfl

/-- C2 witness: scenario A extended with a value containing `:` — lines
`from:x` and `a:b:c` produce calls `("from","x")`, `("a","b:c")` in order. -/
theorem metawrap_sink_calls_witness :
    (∀ l ∈ [['f', 'r', 'o', 'm', ':', 'x'], ['a', ':', 'b', ':', 'c']],
      ':' ∈ l ∧ '\n' ∉ l) ∧
    (driveReads 2 (mkParent (encodeLines
        [['f', 'r', 'o', 'm', ':', 'x'], ['a', ':', 'b', ':', 'c']] ++
        '\n' :: ['B', 'O', 'D', 'Y']))
      (i_stream_create_metawrap (mkParent (encodeLines
        [['f', 'r', 'o', 'm', ':', 'x'], ['a', ':', 'b', ':', 'c']] ++
        '\n' :: ['B', 'O', 'D', 'Y'])))).calls
      = [(['f', 'r', 'o', 'm'], ['x']), (['a'], ['b', ':', 'c'])] :=
  ⟨by decide, metawrap_sink_calls
    [['f', 'r', 'o', 'm', ':', 'x'], ['a', ':', 'b', ':', 'c']]
    ['B', 'O', 'D', 'Y'] 1 (by decide)⟩

/-- C3: for a source whose header block holds a non-empty line without `:`
(before any blank line), a read fails with `EINVAL`; the sink sees only the
lines preceding the bad one, no line after it ever reaches the sink, the
filter never leaves the metadata state (`in_metadata` is never cleared), and
no payload bytes are ever delivered — over any number of further reads. -/
theorem metawrap_format_error_halts (L : List (List Char)) (bad W : List Char)
    (n : Nat) (hL : ∀ l ∈ L, ':' ∈ l ∧ '\n' ∉ l)
    (hbc : ':' ∉ bad) (hbn : '\n' ∉ bad) (hbe : bad ≠ []) :
    (driveChecked (n + 1) (mkParent (encodeLines L ++ (bad ++ '\n' :: W)))
      (i_stream_create_metawrap (mkParent (encodeLines L ++ (bad ++ '\n' :: W))))).calls
        = L.map lineSplit ∧
    (driveChecked (n + 1) (mkParent (encodeLines L ++ (bad ++ '\n' :: W)))
      (i_stream_create_metawrap (mkParent (encodeLines L ++ (bad ++ '\n' :: W))))).data
        = [] ∧
    (driveChecked (n + 1) (mkParent (encodeLines L ++ (bad ++ '\n' :: W)))
      (i_stream_create_metawrap (mkParent (encodeLines L ++ (bad ++ '\n' :: W))))).m.in_metadata
        = true ∧
    (driveChecked (n + 1) (mkParent (encodeLines L ++ (bad ++ '\n' :: W)))
      (i_stream_create_metawrap (mkParent (encodeLines L ++ (bad ++ '\n' :: W))))).m.stream_errno
        = EINVAL := by
  rw [driveChecked, i_stream_read,
    if_neg (by simp [i_stream_create_metawrap]),
    metawrap_first_read_bad L bad W _ rfl hL hbc hbn hbe]
  simp only []
  rw [driveChecked_frozen n _ _ (by simp [EINVAL])]
  simp

/-- C3 witness: scenario C — source `"badline\nBODY"` gives `EINVAL`, no sink
calls, no payload, and the filter stays in the metadata state over three
reads. -/
theorem metawrap_format_error_halts_witness :
    (∀ l ∈ ([] : List (List Char)), ':' ∈ l ∧ '\n' ∉ l) ∧
    (driveChecked 3 (mkParent (encodeLines [] ++
        (['b', 'a', 'd', 'l', 'i', 'n', 'e'] ++ '\n' :: ['B', 'O', 'D', 'Y'])))
      (i_stream_create_metawrap (mkParent (encodeLines [] ++
        (['b', 'a', 'd', 'l', 'i', 'n', 'e'] ++ '\n' :: ['B', 'O', 'D', 'Y']))))).calls
        = [] ∧
    (driveChecked 3 (mkParent (encodeLines [] ++
        (['b', 'a', 'd', 'l', 'i', 'n', 'e'] ++ '\n' :: ['B', 'O', 'D', 'Y'])))
      (i_stream_create_metawrap (mkParent (encodeLines [] ++
        (['b', 'a', 'd', 'l', 'i', 'n', 'e'] ++ '\n' :: ['B', 'O', 'D', 'Y']))))).data
        = [] := by
  refine ⟨by decide, ?_, ?_⟩
  · exact (metawrap_format_error_halts [] ['b', 'a', 'd', 'l', 'i', 'n', 'e']
      ['B', 'O', 'D', 'Y'] 2 (by decide) (by decide) (by decide) (by decide)).1
  · exact (metawrap_format_error_halts [] ['b', 'a', 'd', 'l', 'i', 'n', 'e']
      ['B', 'O', 'D', 'Y'] 2 (by decide) (by decide) (by decide) (by decide)).2.1

theorem window_at_zero (c : List Char) (en : Nat) (b : Bool) :
    (⟨c, c.length, 0, en, b⟩ : Parent).window = c := by
  simp [Parent.window]

theorem metawrap_read_of_failed (p0 : Parent) (m : MWState) (H : HOut)
    (him : m.in_metadata = true) (hv : m.v_offset = 0)
    (hmeta : metadata_header_read (i_stream_seek p0 (m.start_offset + m.v_offset)) m = H)
    (hres : H.res = .failed) :
    i_stream_metawrap_read p0 m =
      some ⟨-1, H.p, { H.m with start_offset := H.p.v_offset }, H.calls, []⟩ := by
  obtain ⟨res, hp, hm2, calls⟩ := H
  simp only at hres
  subst hres
  rw [i_stream_metawrap_read]
  simp only [him, if_true]
  rw [if_neg (by simp [hv]), hmeta]

/-- C4 counterexample: the source `"a:b\n"` (end of input before any blank
line, source error code `0`) makes the read fail with `ret = -1` and
`eof = TRUE` but `stream_errno = 0` — a plain end-of-file indication, not a
generic non-zero truncation error code. -/
theorem metawrap_truncated_plain_eof :
    (Option.map (fun r => (r.ret, r.m.stream_errno, r.m.eof))
      (i_stream_metawrap_read (mkParent ['a', ':', 'b', '\n'])
        (i_stream_create_metawrap (mkParent ['a', ':', 'b', '\n']))))
      = some (-1, 0, true) := by decide

/-- C4 amended: for every source reaching end of input before a blank line
terminates the header, the read fails (`ret = -1`) with `eof` set and the
filter's `stream_errno` set to exactly the source's `stream_errno` — the
source's error code when one is set, and `0` (plain end-of-file, not a
non-zero generic truncation code) when the source has none. -/
theorem metawrap_truncated_copies_parent_errno (L : List (List Char))
    (T : List Char) (en : Nat) (b : Bool)
    (hL : ∀ l ∈ L, ':' ∈ l ∧ '\n' ∉ l) (hT : '\n' ∉ T) :
    ∃ r, i_stream_metawrap_read
        ⟨encodeLines L ++ T, (encodeLines L ++ T).length, 0, en, b⟩
        (i_stream_create_metawrap
          ⟨encodeLines L ++ T, (encodeLines L ++ T).length, 0, en, b⟩) = some r ∧
      r.ret = -1 ∧ r.m.eof = true ∧ r.m.stream_errno = en ∧
      r.m.in_metadata = true := by
  have hseek : i_stream_seek
      (⟨encodeLines L ++ T, (encodeLines L ++ T).length, 0, en, b⟩ : Parent)
      (0 + 0) =
      ⟨encodeLines L ++ T, (encodeLines L ++ T).length, 0, en, b⟩ := by
    simp [i_stream_seek]
  by_cases hen : en = 0
  · subst hen
    have hflen : L.length < (encodeLines L ++ T).length + 1 := by
      have := length_le_encodeLines L
      simp only [List.length_append]
      omega
    have hmeta : metadata_header_read
        (⟨encodeLines L ++ T, (encodeLines L ++ T).length, 0, 0, b⟩ : Parent)
        ⟨0, true, 0, 0, 0, false⟩ =
        ⟨.failed,
          ⟨encodeLines L ++ T, (encodeLines L ++ T).length,
            (encodeLines L).length, 0, b⟩,
          ⟨0, true, 0, 0, 0, true⟩, L.map lineSplit⟩ := by
      have ht := headerLoop_over_truncated L ((encodeLines L ++ T).length + 1)
        ⟨encodeLines L ++ T, (encodeLines L ++ T).length, 0, 0, b⟩
        ⟨0, true, 0, 0, 0, false⟩ T rfl hL hT rfl (window_at_zero _ _ _) hflen
      rw [metadata_header_read]
      simp only [] at ht ⊢
      rw [ht]
      simp
    have hr := metawrap_read_of_failed
      (⟨encodeLines L ++ T, (encodeLines L ++ T).length, 0, 0, b⟩ : Parent)
      ⟨0, true, 0, 0, 0, false⟩
      ⟨.failed,
        ⟨encodeLines L ++ T, (encodeLines L ++ T).length,
          (encodeLines L).length, 0, b⟩,
        ⟨0, true, 0, 0, 0, true⟩, L.map lineSplit⟩
      rfl rfl (by simp only []; rw [hseek]; exact hmeta) rfl
    exact ⟨_, hr, rfl, rfl, rfl, rfl⟩
  · have hmeta : metadata_header_read
        (⟨encodeLines L ++ T, (encodeLines L ++ T).length, 0, en, b⟩ : Parent)
        ⟨0, true, 0, 0, 0, false⟩ =
        ⟨.failed,
          ⟨encodeLines L ++ T, (encodeLines L ++ T).length, 0, en, b⟩,
          ⟨0, true, 0, 0, en, true⟩, []⟩ :=
      headerLoop_errored _ _ _ (by simpa using hen) (by omega)
    have hr := metawrap_read_of_failed
      (⟨encodeLines L ++ T, (encodeLines L ++ T).length, 0, en, b⟩ : Parent)
      ⟨0, true, 0, 0, 0, false⟩
      ⟨.failed,
        ⟨encodeLines L ++ T, (encodeLines L ++ T).length, 0, en, b⟩,
        ⟨0, true, 0, 0, en, true⟩, []⟩
      rfl rfl (by simp only []; rw [hseek]; exact hmeta) rfl
    exact ⟨_, hr, rfl, rfl, rfl, rfl⟩

/-- C4 amended witness: on `"a:b\n"` with a clean source the filter's error
code is `0`, and on the same content with source error code `5` the filter's
error code is `5`. -/
theorem metawrap_truncated_copies_parent_errno_witness :
    (∀ l ∈ [['a', ':', 'b']], ':' ∈ l ∧ '\n' ∉ l) ∧
    (∃ r, i_stream_metawrap_read
        ⟨encodeLines [['a', ':', 'b']] ++ [], (encodeLines [['a', ':', 'b']] ++ []).length, 0, 0, false⟩
        (i_stream_create_metawrap
          ⟨encodeLines [['a', ':', 'b']] ++ [], (encodeLines [['a', ':', 'b']] ++ []).length, 0, 0, false⟩) = some r ∧
      r.ret = -1 ∧ r.m.eof = true ∧ r.m.stream_errno = 0 ∧
      r.m.in_metadata = true) ∧
    (∃ r, i_stream_metawrap_read
        ⟨encodeLines [['a', ':', 'b']] ++ [], (encodeLines [['a', ':', 'b']] ++ []).length, 0, 5, false⟩
        (i_stream_create_metawrap
          ⟨encodeLines [['a', ':', 'b']] ++ [], (encodeLines [['a', ':', 'b']] ++ []).length, 0, 5, false⟩) = some r ∧
      r.ret = -1 ∧ r.m.eof = true ∧ r.m.stream_errno = 5 ∧
      r.m.in_metadata = true) :=
  ⟨by decide,
    metawrap_truncated_copies_parent_errno [['a', ':', 'b']] [] 0 false
      (by decide) (by decide),
    metawrap_truncated_copies_parent_errno [['a', ':', 'b']] [] 5 false
      (by decide) (by decide)⟩

/-- C5 counterexample: over the source `"a:b\nc:d\n\nXY"` with only the first
four bytes arrived, the first read returns `0` (`NeedMoreInput`) while still
in `ParsingHeader`, yet writes `start_offset` (from its initial `0` to `4`) —
so `start_offset` is not assigned exactly once at header completion, and a
read returning `NeedMoreInput` does write it. -/
theorem metawrap_start_offset_written_on_wouldblock :
    (i_stream_create_metawrap
      ⟨['a', ':', 'b', '\n', 'c', ':', 'd', '\n', '\n', 'X', 'Y'], 4, 0, 0,
        false⟩).start_offset = 0 ∧
    Option.map (fun r => (r.ret, r.m.in_metadata, r.m.start_offset))
      (i_stream_metawrap_read
        ⟨['a', ':', 'b', '\n', 'c', ':', 'd', '\n', '\n', 'X', 'Y'], 4, 0, 0, false⟩
        (i_stream_create_metawrap
          ⟨['a', ':', 'b', '\n', 'c', ':', 'd', '\n', '\n', 'X', 'Y'], 4, 0, 0,
            false⟩)) = some (0, true, 4) := by decide

/-- C5 amended: `start_offset` is rewritten by every read performed while in
`ParsingHeader` (to the parent's current parse position, even when the read
returns `NeedMoreInput` or `Failure`), but across every sequence of read and
stat operations its value never decreases. -/
theorem metawrap_start_offset_monotone (p : Parent) (m : MWState) (r : ROut)
    (e : Bool) (s : SOut) :
    (i_stream_metawrap_read p m = some r →
      m.start_offset ≤ r.m.start_offset) ∧
    (i_stream_metawrap_stat p m e = some s →
      m.start_offset ≤ s.m.start_offset) :=
  ⟨metawrap_read_start_mono p m r, metawrap_stat_start_mono p m e s⟩

/-- C5 amended witness: concrete monotonicity instances for one read and one
stat over the source `"\n"`. -/
theorem metawrap_start_offset_monotone_witness :
    ((i_stream_create_metawrap (mkParent ['\n'])).start_offset ≤
      ((⟨-1, ⟨['\n'], 1, 1, 0, false⟩, ⟨1, false, 0, 1, 0, true⟩, [], []⟩ :
        ROut)).m.start_offset) ∧
    ((i_stream_create_metawrap (mkParent ['\n'])).start_offset ≤
      ((⟨-1, 1, ⟨['\n'], 1, 1, 0, false⟩, ⟨1, false, 0, 1, 0, true⟩, []⟩ :
        SOut)).m.start_offset) :=
  ⟨(metawrap_start_offset_monotone (mkParent ['\n'])
      (i_stream_create_metawrap (mkParent ['\n']))
      ⟨-1, ⟨['\n'], 1, 1, 0, false⟩, ⟨1, false, 0, 1, 0, true⟩, [], []⟩ true
      ⟨-1, 1, ⟨['\n'], 1, 1, 0, false⟩, ⟨1, false, 0, 1, 0, true⟩, []⟩).1
    (by decide),
   (metawrap_start_offset_monotone (mkParent ['\n'])
      (i_stream_create_metawrap (mkParent ['\n']))
      ⟨-1, ⟨['\n'], 1, 1, 0, false⟩, ⟨1, false, 0, 1, 0, true⟩, [], []⟩ true
      ⟨-1, 1, ⟨['\n'], 1, 1, 0, false⟩, ⟨1, false, 0, 1, 0, true⟩, []⟩).2
    (by decide)⟩

/-- C6 counterexample: over `"a:b\n\n"` — a complete header block with an
empty payload, fully arrived — the filter's stat returns `-1` (failure), not
the size `source_size - start_offset = 0`, even though the source's stat
succeeds and a read completes the header. -/
theorem metawrap_stat_fails_on_empty_payload :
    Option.map (fun s => s.ret)
      (i_stream_metawrap_stat (mkParent ['a', ':', 'b', '\n', '\n'])
        (i_stream_create_metawrap (mkParent ['a', ':', 'b', '\n', '\n']))
        true) = some (-1) ∧
    (driveReads 1 (mkParent ['a', ':', 'b', '\n', '\n'])
      (i_stream_create_metawrap
        (mkParent ['a', ':', 'b', '\n', '\n']))).m.in_metadata = false := by
  decide

/-- C6 amended: a stat with `exact = true` over a fully arrived source with a
complete header block reports `size = source_size - start_offset` (the exact
payload byte count), provided the payload is non-empty when the stat itself
must first complete the header (with an empty payload the forced read hits
end-of-file and the stat fails, as shown by the counterexample); while the
header cannot yet be completed without more input (the forced read reports
would-block), the stat succeeds and reports the size as unknown
(`st_size = -1`) rather than an error. -/
theorem metawrap_stat_reports_payload_size :
    (∀ (L : List (List Char)) (B : List Char),
      (∀ l ∈ L, ':' ∈ l ∧ '\n' ∉ l) → B ≠ [] →
      ∃ s, i_stream_metawrap_stat (mkParent (encodeLines L ++ '\n' :: B))
          (i_stream_create_metawrap (mkParent (encodeLines L ++ '\n' :: B)))
          true = some s ∧
        s.ret = 0 ∧ s.st_size = (B.length : Int) ∧
        s.st_size = (((encodeLines L ++ '\n' :: B).length : Int) -
          (s.m.start_offset : Int))) ∧
    (∀ (p : Parent) (m : MWState) (e : Bool) (r : ROut),
      m.in_metadata = true → i_stream_metawrap_read p m = some r → r.ret = 0 →
      i_stream_metawrap_stat p m e = some ⟨0, -1, r.p, r.m, r.calls⟩) := by
  constructor
  · intro L B hL hB
    have hfr := metawrap_first_read L B _ rfl hL
    have hBe : B.isEmpty = false := by
      cases B with
      | nil => exact absurd rfl hB
      | cons d ds => rfl
    have hlen : (encodeLines L ++ '\n' :: B).length =
        (encodeLines L).length + 1 + B.length := by
      simp [List.length_append]
      omega
    have hstat : i_stream_metawrap_stat (mkParent (encodeLines L ++ '\n' :: B))
        (i_stream_create_metawrap (mkParent (encodeLines L ++ '\n' :: B)))
        true =
        some ⟨0, (((encodeLines L ++ '\n' :: B).length : Int) -
            (((encodeLines L).length + 1 : Nat) : Int)),
          ⟨encodeLines L ++ '\n' :: B, (encodeLines L ++ '\n' :: B).length,
            ((encodeLines L).length + 1) + B.length, 0, false⟩,
          ⟨(encodeLines L).length + 1, false, B.length,
            (encodeLines L).length + 1, 0, B.isEmpty⟩,
          L.map lineSplit⟩ := by
      rw [i_stream_metawrap_stat]
      simp only [i_stream_create_metawrap, mkParent, if_true] at hfr ⊢
      rw [hfr]
      simp only [hBe, Bool.false_eq_true, if_false]
      rw [if_neg (by
        exact Int.not_lt.mpr (Int.natCast_nonneg _))]
      rw [if_neg (by
        intro h
        exact hB (List.eq_nil_of_length_eq_zero (by exact_mod_cast h)))]
      rw [if_neg (by
        rw [hlen]
        omega)]
    refine ⟨_, hstat, rfl, ?_, rfl⟩
    simp only []
    rw [hlen]
    push_cast
    omega
  · intro p m e r him hr h0
    exact metawrap_stat_wouldblock p m e r him hr h0

/-- C6 amended witness: scenario A — stat over `"from:x\nsubject:hi\n\nBODY"`
reports size `4`; and a concrete would-block stat reports size unknown. -/
theorem metawrap_stat_reports_payload_size_witness :
    (∃ s, i_stream_metawrap_stat
        (mkParent (encodeLines [['f', 'r', 'o', 'm', ':', 'x'],
          ['s', 'u', 'b', 'j', 'e', 'c', 't', ':', 'h', 'i']] ++
          '\n' :: ['B', 'O', 'D', 'Y']))
        (i_stream_create_metawrap (mkParent
          (encodeLines [['f', 'r', 'o', 'm', ':', 'x'],
            ['s', 'u', 'b', 'j', 'e', 'c', 't', ':', 'h', 'i']] ++
            '\n' :: ['B', 'O', 'D', 'Y'])))
        true = some s ∧
      s.ret = 0 ∧ s.st_size = ((4 : Nat) : Int) ∧
      s.st_size = (((encodeLines [['f', 'r', 'o', 'm', ':', 'x'],
          ['s', 'u', 'b', 'j', 'e', 'c', 't', ':', 'h', 'i']] ++
          '\n' :: ['B', 'O', 'D', 'Y']).length : Int) -
        (s.m.start_offset : Int))) ∧
    i_stream_metawrap_stat
      ⟨['a', ':', 'b', '\n', 'c', ':', 'd', '\n', '\n', 'X', 'Y'], 4, 0, 0, false⟩
      (i_stream_create_metawrap
        ⟨['a', ':', 'b', '\n', 'c', ':', 'd', '\n', '\n', 'X', 'Y'], 4, 0, 0, false⟩)
      true =
      some ⟨0, -1,
        ⟨['a', ':', 'b', '\n', 'c', ':', 'd', '\n', '\n', 'X', 'Y'], 4, 4, 0, false⟩,
        ⟨4, true, 0, 0, 0, false⟩, [(['a'], ['b'])]⟩ :=
  ⟨metawrap_stat_reports_payload_size.1
      [['f', 'r', 'o', 'm', ':', 'x'],
        ['s', 'u', 'b', 'j', 'e', 'c', 't', ':', 'h', 'i']]
      ['B', 'O', 'D', 'Y'] (by decide) (by decide),
   metawrap_stat_reports_payload_size.2
      ⟨['a', ':', 'b', '\n', 'c', ':', 'd', '\n', '\n', 'X', 'Y'], 4, 0, 0, false⟩
      (i_stream_create_metawrap
        ⟨['a', ':', 'b', '\n', 'c', ':', 'd', '\n', '\n', 'X', 'Y'], 4, 0, 0, false⟩)
      true
      ⟨0, ⟨['a', ':', 'b', '\n', 'c', ':', 'd', '\n', '\n', 'X', 'Y'], 4, 4, 0, false⟩,
        ⟨4, true, 0, 0, 0, false⟩, [(['a'], ['b'])], []⟩
      (by decide) (by decide) (by decide)⟩

/-- C7: on every reachable filter state the source size dominates
`start_offset`, so once the header is complete a stat never aborts on the
`i_assert(st_size >= start_offset)` guard; and a source size smaller than
`start_offset` is signalled only as an assertion abort (`none`), never
returned as an ordinary result. -/
theorem metawrap_stat_assert_never_fires :
    (∀ (p : Parent) (m : MWState), Reach p m →
      m.start_offset ≤ p.content.length) ∧
    (∀ (p : Parent) (m : MWState) (e : Bool), Reach p m →
      m.in_metadata = false → i_stream_metawrap_stat p m e ≠ none) ∧
    (∀ (p : Parent) (m : MWState) (e : Bool), m.in_metadata = false →
      p.content.length < m.start_offset → i_stream_metawrap_stat p m e = none) := by
  refine ⟨fun p m h => (reach_inv p m h).2.1, ?_, ?_⟩
  · intro p m e h him
    obtain ⟨h1, h2, h3⟩ := reach_inv p m h
    rw [i_stream_metawrap_stat]
    simp only [him, Bool.false_eq_true, if_false]
    rw [if_neg (Nat.not_lt.mpr h2)]
    simp
  · intro p m e him hlt
    exact metawrap_stat_assert p m e him hlt

/-- C7 witness: concrete instances — the invariant on a fresh state, a
non-aborting stat on a reached passthrough state, and an aborting stat on a
state with `start_offset` beyond the source size. -/
theorem metawrap_stat_assert_never_fires_witness :
    ((i_stream_create_metawrap (⟨['x'], 1, 0, 0, false⟩ : Parent)).start_offset ≤
      (⟨['x'], 1, 0, 0, false⟩ : Parent).content.length) ∧
    (i_stream_metawrap_stat (⟨['\n'], 1, 1, 0, false⟩ : Parent)
      (⟨1, false, 0, 1, 0, true⟩ : MWState) true ≠ none) ∧
    (i_stream_metawrap_stat (⟨['x'], 1, 0, 0, false⟩ : Parent)
      (⟨5, false, 0, 0, 0, false⟩ : MWState) true = none) :=
  ⟨metawrap_stat_assert_never_fires.1 _ _
      (Reach.init ['x'] 1 0 0 false (by decide)),
   metawrap_stat_assert_never_fires.2.1
      (⟨['\n'], 1, 1, 0, false⟩ : Parent) (⟨1, false, 0, 1, 0, true⟩ : MWState)
      true
      (Reach.readStep (⟨['\n'], 1, 0, 0, false⟩ : Parent)
        (i_stream_create_metawrap (⟨['\n'], 1, 0, 0, false⟩ : Parent))
        ⟨-1, ⟨['\n'], 1, 1, 0, false⟩, ⟨1, false, 0, 1, 0, true⟩, [], []⟩
        (Reach.init ['\n'] 1 0 0 false (by decide)) (by decide))
      (by decide),
   metawrap_stat_assert_never_fires.2.2 _ _ true (by decide) (by decide)⟩

/-- C8: after a read through the generic entry point returns failure while
still in `ParsingHeader`, the filter never makes further header-parsing
progress: over any number of subsequent reads there are no further sink
invocations, no payload bytes, and the state — including the recorded error —
persists unchanged (so `Passthrough` is never entered). -/
theorem metawrap_failure_freezes (p : Parent) (m : MWState) (r : ROut)
    (n : Nat) (him : m.in_metadata = true) (hr : i_stream_read p m = some r)
    (hret : r.ret = -1) (him2 : r.m.in_metadata = true) :
    driveChecked n r.p r.m = ⟨r.p, r.m, [], []⟩ := by
  by_cases hme : m.stream_errno = 0
  · rw [i_stream_read, if_neg (by simp [hme])] at hr
    rw [i_stream_metawrap_read] at hr
    simp only [him, if_true] at hr
    have hv : m.v_offset = 0 := by
      by_contra hv
      rw [if_pos hv] at hr
      cases hr
    rw [if_neg (by simp [hv])] at hr
    cases hH : metadata_header_read (i_stream_seek p (m.start_offset + m.v_offset)) m with
    | mk res hp hm2 calls =>
    rw [hH] at hr
    have heff := metadata_header_effects (i_stream_seek p (m.start_offset + m.v_offset)) m
    rw [hH] at heff
    cases res with
    | assertBlocking => cases hr
    | needMore =>
      simp only [Option.some.injEq] at hr
      subst hr
      simp at hret
    | complete =>
      simp only [Option.some.injEq] at hr
      subst hr
      rw [(copy_from_parent_effects _ _ _).1] at him2
      simp at him2
    | failed =>
      simp only [Option.some.injEq] at hr
      subst hr
      by_cases hm2e : hm2.stream_errno = 0
      · obtain ⟨g1, g2, g3, g4⟩ := metadata_header_failed_clean
          (i_stream_seek p (m.start_offset + m.v_offset)) m
          (by rw [hH]) (by rw [hH]; exact hm2e)
        rw [hH] at g2 g3 g4
        simp only [] at g2 g3 g4
        have hpe : hp.stream_errno = p.stream_errno := by
          simpa [i_stream_seek] using heff.2.2.1
        refine driveChecked_stuck n hp _ ?_ ?_ rfl ?_ g2 g3 ?_ ?_
        · rw [g4]
          exact him
        · rw [g4]
          exact hv
        · rw [hpe]
          simpa [i_stream_seek] using g1
        · rw [g4]
        · exact hm2e
      · exact driveChecked_frozen n _ _ hm2e
  · rw [i_stream_read, if_pos hme] at hr
    rw [Option.some.injEq] at hr
    subst hr
    exact driveChecked_frozen n _ _ hme

/-- C8 witness: over `"bad\nBODY"` the first read through `i_stream_read`
fails with `EINVAL` while still in `ParsingHeader`, and three further reads
change nothing. -/
theorem metawrap_failure_freezes_witness :
    ((i_stream_create_metawrap
      (mkParent ['b', 'a', 'd', '\n', 'B', 'O', 'D', 'Y'])).in_metadata = true) ∧
    driveChecked 3
      (⟨['b', 'a', 'd', '\n', 'B', 'O', 'D', 'Y'], 8, 4, 0, false⟩ : Parent)
      (⟨4, true, 0, 0, 22, false⟩ : MWState) =
      ⟨⟨['b', 'a', 'd', '\n', 'B', 'O', 'D', 'Y'], 8, 4, 0, false⟩,
        ⟨4, true, 0, 0, 22, false⟩, [], []⟩ :=
  ⟨rfl,
   metawrap_failure_freezes
      (mkParent ['b', 'a', 'd', '\n', 'B', 'O', 'D', 'Y'])
      (i_stream_create_metawrap (mkParent ['b', 'a', 'd', '\n', 'B', 'O', 'D', 'Y']))
      ⟨-1, ⟨['b', 'a', 'd', '\n', 'B', 'O', 'D', 'Y'], 8, 4, 0, false⟩,
        ⟨4, true, 0, 0, 22, false⟩, [], []⟩ 3
      (by decide) (by decide) (by decide) (by decide)⟩

/-- C9: the filter's observable behaviour — sink-call sequence (keys, values,
order) and payload byte stream — is a deterministic function of the source
content alone: two independently created filter instances over equal content
produce identical call traces and identical payload bytes, with no
instance-dependent or global state involved. -/
theorem metawrap_deterministic (c : List Char) (n : Nat) (p1 p2 : Parent)
    (m1 m2 : MWState) (hp1 : p1 = mkParent c) (hp2 : p2 = mkParent c)
    (hm1 : m1 = i_stream_create_metawrap p1)
    (hm2 : m2 = i_stream_create_metawrap p2) :
    (driveReads n p1 m1).calls = (driveReads n p2 m2).calls ∧
    (driveReads n p1 m1).data = (driveReads n p2 m2).data := by
  subst hp1 hp2 hm1 hm2
  exact ⟨rfl, rfl⟩

/-- C9 witness: two instances over `"a:b\n\nXY"` agree on calls and data. -/
theorem metawrap_deterministic_witness :
    (driveReads 2 (mkParent ['a', ':', 'b', '\n', '\n', 'X', 'Y'])
      (i_stream_create_metawrap (mkParent ['a', ':', 'b', '\n', '\n', 'X', 'Y']))).calls =
    (driveReads 2 (mkParent ['a', ':', 'b', '\n', '\n', 'X', 'Y'])
      (i_stream_create_metawrap (mkParent ['a', ':', 'b', '\n', '\n', 'X', 'Y']))).calls ∧
    (driveReads 2 (mkParent ['a', ':', 'b', '\n', '\n', 'X', 'Y'])
      (i_stream_create_metawrap (mkParent ['a', ':', 'b', '\n', '\n', 'X', 'Y']))).data =
    (driveReads 2 (mkParent ['a', ':', 'b', '\n', '\n', 'X', 'Y'])
      (i_stream_create_metawrap (mkParent ['a', ':', 'b', '\n', '\n', 'X', 'Y']))).data :=
  metawrap_deterministic ['a', ':', 'b', '\n', '\n', 'X', 'Y'] 2 _ _ _ _
    rfl rfl rfl rfl

/-- C10: a `NeedMoreInput` (`0`) result of `metadata_header_read` implies the
parent is non-blocking; a blocking parent that yields no complete line while
not at end of input trips the `i_assert(!blocking)` abort instead of
surfacing would-block; and for a blocking parent (whose reads block until its
content has arrived) every header-parsing read either completes the header or
fails. -/
theorem metadata_header_blocking_behaviour (p : Parent) (m : MWState) :
    ((metadata_header_read p m).res = .needMore → p.blocking = false) ∧
    (p.blocking = true → i_stream_read_next_line p = none → p.eofNow = false →
      (metadata_header_read p m).res = .assertBlocking) ∧
    (p.blocking = true → p.avail = p.content.length →
      (metadata_header_read p m).res = .complete ∨
      (metadata_header_read p m).res = .failed) := by
  refine ⟨metadata_header_needMore_nonblocking p m, ?_,
    metadata_header_blocking_resolves p m⟩
  intro hb hrnl hef
  rw [metadata_header_read, headerLoop_assert p.content.length p m hrnl hef hb]

/-- C10 witness: a concrete would-block run is non-blocking, a blocking
parent with a partial line trips the assert, and a blocking parent with all
content arrived completes. -/
theorem metadata_header_blocking_behaviour_witness :
    ((⟨['a', ':', 'b', '\n', 'c'], 4, 4, 0, false⟩ : Parent).blocking = false) ∧
    ((metadata_header_read (⟨['a'], 0, 0, 0, true⟩ : Parent)
      (i_stream_create_metawrap (⟨['a'], 0, 0, 0, true⟩ : Parent))).res =
      .assertBlocking) ∧
    ((metadata_header_read (⟨['\n', 'B'], 2, 0, 0, true⟩ : Parent)
      (i_stream_create_metawrap (⟨['\n', 'B'], 2, 0, 0, true⟩ : Parent))).res =
      .complete ∨
     (metadata_header_read (⟨['\n', 'B'], 2, 0, 0, true⟩ : Parent)
      (i_stream_create_metawrap (⟨['\n', 'B'], 2, 0, 0, true⟩ : Parent))).res =
      .failed) :=
  ⟨(metadata_header_blocking_behaviour
      (⟨['a', ':', 'b', '\n', 'c'], 4, 4, 0, false⟩ : Parent)
      (i_stream_create_metawrap
        (⟨['a', ':', 'b', '\n', 'c'], 4, 4, 0, false⟩ : Parent))).1 (by decide),
   (metadata_header_blocking_behaviour (⟨['a'], 0, 0, 0, true⟩ : Parent)
      (i_stream_create_metawrap (⟨['a'], 0, 0, 0, true⟩ : Parent))).2.1
      (by decide) (by decide) (by decide),
   (metadata_header_blocking_behaviour (⟨['\n', 'B'], 2, 0, 0, true⟩ : Parent)
      (i_stream_create_metawrap (⟨['\n', 'B'], 2, 0, 0, true⟩ : Parent))).2.2
      (by decide) (by decide)⟩
